import Mathlib

/-!
# Verification of the GeometricConvolutions core (`geometric.py`)

This file is a shallow embedding, in Lean 4, of the parts of
`src/geometricconvolutions/geometric.py` that the verified claims are about:

* the symmetry-group generator (`make_all_operators` and
  `permutation_matrix_from_sequence`);
* the functional geometric-image algebra (`hash`, `get_torus_expanded`,
  `pre_tensor_product_expand`, `conv_contract_image_expand`, `mul`,
  `convolve`, `convolve_contract`, `get_rotated_keys`, `times_group_element`);
* the contraction machinery (`LETTERS`, `multicontract`,
  `get_contraction_indices`);
* the `GeometricImage` constructor/parity bookkeeping and the `Layer`
  container (`append`, `__add__`, `to_vector`, `from_vector`).

Machine floats are modelled by exact integers (all array operations the claims
touch are ring operations, and every group matrix has entries in {-1,0,1}, so
values stay integral); grids are modelled as functions on `Fin D → Fin N` and a
rank-`k` tensor pixel as a function `(ι → Fin D) → ℤ` for an index type `ι`
with `ι = Fin k` in the homogeneous case.  `jnp.einsum`, numpy sorting and
`jax.lax.conv_general_dilated` are library functions, not repository code;
they are modelled by their documented array semantics.
-/

/-- The `TINY = 1e-5` constant, as a rational (only its positivity matters). -/
def TINY : ℚ := 1 / 100000

/-- A `D × D` integer matrix, as a plain function type (the embedding of the
`jnp` operator arrays). -/
def Mat (D : ℕ) : Type := Fin D → Fin D → ℤ

instance (D : ℕ) : DecidableEq (Mat D) :=
  inferInstanceAs (DecidableEq (Fin D → Fin D → ℤ))

/-- Matrix product, the embedding of `@` on operator matrices. -/
def matMul {D : ℕ} (A B : Mat D) : Mat D := fun i j => ∑ q, A i q * B q j

/-- Matrix transpose. -/
def matTranspose {D : ℕ} (A : Mat D) : Mat D := fun i j => A j i

/-- The identity matrix. -/
def matId (D : ℕ) : Mat D := fun i j => if i = j then 1 else 0

/-- Embedding of `permutation_matrix_from_sequence(seq)`: for each `num` in
`seq` the corresponding row has a single `1` in column `num`; i.e. entry
`(i, j)` is `1` exactly when `j = seq[i]`. -/
def permutation_matrix_from_sequence (D : ℕ) (seq : List ℕ) : Mat D :=
  fun i j => if (j : ℕ) = seq.getD i 0 then 1 else 0

/-- Embedding of `it.product([1,-1], repeat=D)` (the sign tuples of the ±1
diagonal factors), in the same lexicographic order with `1` before `-1`. -/
def signTuples : ℕ → List (List ℤ)
  | 0 => [[]]
  | n + 1 => ([1, -1] : List ℤ).flatMap (fun s => (signTuples n).map (fun t => s :: t))

/-- Embedding of `np.diag(prod)` for a sign tuple. -/
def diagMat (D : ℕ) (s : List ℤ) : Mat D :=
  fun i j => if i = j then s.getD i 0 else 0

/-- Embedding of `make_all_operators(D)`: every permutation matrix of size `D`
multiplied by every ±1 diagonal matrix, flattened to a single list.  (The
enumeration order of `List.permutations` differs from `itertools.permutations`,
which is immaterial to the claims: they only concern the length of the list
and membership in it.) -/
def make_all_operators (D : ℕ) : List (Mat D) :=
  ((List.range D).permutations.map (permutation_matrix_from_sequence D)).flatMap
    (fun M => (signTuples D).map (fun s => matMul M (diagMat D s)))

/-- The signed permutation matrix attached to a permutation `f` of the
coordinates and a sign vector `ε`: entry `(i, j)` is `ε j` when `j = f i` and
`0` otherwise.  `make_all_operators` returns exactly these matrices. -/
def signedPermMat (D : ℕ) (f : Equiv.Perm (Fin D)) (ε : Fin D → ℤ) : Mat D :=
  fun i j => if j = f i then ε j else 0

/-- A matrix is a signed permutation matrix: one nonzero per row/column, each
nonzero equal to ±1. -/
def IsSignedPerm {D : ℕ} (g : Mat D) : Prop :=
  ∃ f : Equiv.Perm (Fin D), ∃ ε : Fin D → ℤ,
    (∀ j, ε j = 1 ∨ ε j = -1) ∧ g = signedPermMat D f ε

instance (N c : ℕ) [NeZero N] : NeZero (N + c) :=
  ⟨by have := NeZero.ne N; omega⟩

/-- Reduction of an integer index into the grid `[0, N)`, the embedding of
`jnp.remainder(indices, N)` used by `hash`. -/
def modIdx (N : ℕ) [NeZero N] (z : ℤ) : Fin N :=
  ⟨(z % (N : ℤ)).toNat, by
    have hN : 0 < (N : ℤ) := by exact_mod_cast Nat.pos_of_ne_zero (NeZero.ne N)
    have h1 : 0 ≤ z % (N : ℤ) := Int.emod_nonneg z (by omega)
    have h2 : z % (N : ℤ) < (N : ℤ) := Int.emod_lt_of_pos z hN
    omega⟩

/-- Embedding of `hash(D, image, indices)` composed with indexing: read the
image at integer key vector `x`, wrapping around the torus by `mod N`. -/
def hashRead (D N : ℕ) [NeZero N] {ι : Type}
    (A : (Fin D → Fin N) → (ι → Fin D) → ℤ) (x : Fin D → ℤ) : (ι → Fin D) → ℤ :=
  A (fun a => modIdx N (x a))

/-- Embedding of `get_torus_expanded(D, image, filter_image, dilation)`: an
image of side `N + 2·((M-1)//2)·d` whose pixel at key `t` is
`image[hash(t - padding)]` with `padding = ((M-1)//2)·d`. -/
def get_torus_expanded (D N M d : ℕ) [NeZero N] {ι : Type}
    (A : (Fin D → Fin N) → (ι → Fin D) → ℤ) :
    (Fin D → Fin (N + 2 * ((M - 1) / 2 * d))) → (ι → Fin D) → ℤ :=
  fun t => hashRead D N A (fun a => (t a : ℤ) - ((M - 1) / 2 * d : ℕ))

/-- Embedding of `jnp.rint`: round to the nearest integer, halves to even. -/
def rint (x : ℚ) : ℤ :=
  if x - ⌊x⌋ = 1 / 2 then (if Even ⌊x⌋ then ⌊x⌋ else ⌊x⌋ + 1) else round x

/-- Embedding of the module-level `get_rotated_keys(D, data, gg)` (the one the
module-level `times_group_element` uses): shift keys by the grid center
`(N-1)/2`, apply `gg` on the right (row-vector convention), shift back and
round to the nearest integer. -/
def get_rotated_keys (D N : ℕ) (g : Mat D) (p : Fin D → Fin N) : Fin D → ℤ :=
  fun q =>
    rint ((∑ r, ((p r : ℚ) - ((N : ℚ) - 1) / 2) * (g r q : ℚ)) + ((N : ℚ) - 1) / 2)

/-- The sign of the determinant, the embedding of the `sign` output of
`jnp.linalg.slogdet`. -/
def detSign {D : ℕ} (g : Mat D) : ℤ :=
  if 0 < (Matrix.of g).det then 1 else if (Matrix.of g).det < 0 then -1 else 0

/-- Embedding of the module-level `times_group_element(D, data, parity, gg)`
in the collision-free regime `D + k ≤ 13` of its einsum string: pixel at `p`
is read from the rotated key of `p` (with torus wrap), every tensor index is
multiplied by `gg` (the einsum over `k` copies of `gg`), and the whole result
is scaled by `sign(det gg)^parity`.  The einsum string starts the `k` new
output letters at `LETTERS[13]`, so for `D + k ≥ 14` they collide with the
data letters `LETTERS[:D+k]` and `jnp.einsum` drops output axes; that regime
is not this function — it is modelled by `rotEinstrLetters`/`rotOutputRank`
below, and every use of this function is restricted to `D + k ≤ 13`. -/
def times_group_element (D N : ℕ) [NeZero N] {ι : Type} [Fintype ι] [DecidableEq ι]
    (parity : ℕ) (g : Mat D)
    (A : (Fin D → Fin N) → (ι → Fin D) → ℤ) :
    (Fin D → Fin N) → (ι → Fin D) → ℤ :=
  fun p i =>
    detSign g ^ parity *
      ∑ j : ι → Fin D, (∏ t, g (i t) (j t)) *
        hashRead D N A (get_rotated_keys D N g p) j

/-- Embedding of the first component of `pre_tensor_product_expand`: the
tensor product of `image_a` with an all-ones tensor shaped like the other
operand's tensor part, with `image_a`'s original indices kept first. -/
def pre_tensor_product_expand_fst {σ : Type} {D : ℕ} {ι₁ : Type} (ι₂ : Type)
    (A : σ → (ι₁ → Fin D) → ℤ) : σ → ((ι₁ ⊕ ι₂) → Fin D) → ℤ :=
  fun x t => A x (fun u => t (Sum.inl u)) * 1

/-- Embedding of the second component of `pre_tensor_product_expand`: ones on
`image_a`'s indices (transposed to the middle), `image_b` on its own. -/
def pre_tensor_product_expand_snd {σ : Type} {D : ℕ} (ι₁ : Type) {ι₂ : Type}
    (B : σ → (ι₂ → Fin D) → ℤ) : σ → ((ι₁ ⊕ ι₂) → Fin D) → ℤ :=
  fun y t => 1 * B y (fun u => t (Sum.inr u))

/-- Embedding of `mul(D, image_a, image_b)`: expand both operands with
`pre_tensor_product_expand` and multiply elementwise (the pixelwise tensor
product). -/
def mul (D N : ℕ) [NeZero N] {ι₁ ι₂ : Type}
    (A : (Fin D → Fin N) → (ι₁ → Fin D) → ℤ)
    (B : (Fin D → Fin N) → (ι₂ → Fin D) → ℤ) :
    (Fin D → Fin N) → ((ι₁ ⊕ ι₂) → Fin D) → ℤ :=
  fun x t =>
    pre_tensor_product_expand_fst ι₂ A x t * pre_tensor_product_expand_snd ι₁ B x t

/-- The `padding` argument of `convolve`: `TORUS`, `VALID`, `SAME`, or an
explicit tuple of `(lo, hi)` pairs.  The Python `None` default is an
`Option.none` resolved from `is_torus`. -/
inductive Padding (D : ℕ)
  | torus
  | valid
  | same
  | pairs (lohi : Fin D → ℕ × ℕ)

/-- Resolution of the `padding=None` default: `TORUS` if `is_torus` else
`SAME`. -/
def resolvePadding {D : ℕ} (isTorus : Bool) (pad : Option (Padding D)) : Padding D :=
  match pad with
  | some p => p
  | none => if isTorus then Padding.torus else Padding.same

/-- Whether an integer key vector lies inside the `[0, L)^D` grid. -/
def inGrid (L : ℕ) {D : ℕ} (x : Fin D → ℤ) : Prop :=
  ∀ a, 0 ≤ x a ∧ x a < (L : ℤ)

instance (L : ℕ) {D : ℕ} (x : Fin D → ℤ) : Decidable (inGrid L x) :=
  inferInstanceAs (Decidable (∀ _a, _ ∧ _))

/-- A grid image extended to all integer keys by zero (the reads
`jax.lax.conv_general_dilated` performs never leave the physical array; the
zero value outside only pads the domain of the total function). -/
def zeroExtend (D N : ℕ) [NeZero N] {ι : Type}
    (A : (Fin D → Fin N) → (ι → Fin D) → ℤ) : (Fin D → ℤ) → (ι → Fin D) → ℤ :=
  fun x => if inGrid N x then A (fun a => modIdx N (x a)) else fun _ => 0

/-- The left-hand-side array `conv_general_dilated` correlates over, as a total
function on integer keys: the torus-expanded image for `TORUS` padding, the
image itself for `VALID`, and the image shifted by the low padding for
`SAME`/explicit padding (zero outside).  `d0` is `rhs_dilation[0]`, the single
dilation entry `get_torus_expanded` is called with. -/
def paddedRead (D N M : ℕ) [NeZero N] {ι : Type}
    (A : (Fin D → Fin N) → (ι → Fin D) → ℤ)
    (isTorus : Bool) (stridePad : Option (Padding D)) (dil : Fin D → ℕ) :
    (Fin D → ℤ) → (ι → Fin D) → ℤ :=
  let d0 : ℕ := if h : 0 < D then dil ⟨0, h⟩ else 1
  match resolvePadding isTorus stridePad with
  | Padding.torus => zeroExtend D (N + 2 * ((M - 1) / 2 * d0)) (get_torus_expanded D N M d0 A)
  | Padding.valid => zeroExtend D N A
  | Padding.same => fun x => zeroExtend D N A (fun a => x a - ((M - 1) / 2 * dil a : ℕ))
  | Padding.pairs lohi => fun x => zeroExtend D N A (fun a => x a - ((lohi a).1 : ℕ))

/-- The output spatial side length of a valid correlation of a side-`inN`
array with a dilated side-`M` filter at stride `s`. -/
def convOutputSize (inN M s d : ℕ) : ℕ := (inN - (d * (M - 1) + 1)) / s + 1

/-- The per-axis output side length of `convolve` (the spatial shape of the
array `conv_general_dilated` returns). -/
def convolveOutputSize {D : ℕ} (N M : ℕ) (isTorus : Bool)
    (stride dil : Fin D → ℕ) (pad : Option (Padding D)) : Fin D → ℕ :=
  let d0 : ℕ := if h : 0 < D then dil ⟨0, h⟩ else 1
  fun a =>
    match resolvePadding isTorus pad with
    | Padding.torus => convOutputSize (N + 2 * ((M - 1) / 2 * d0)) M (stride a) (dil a)
    | Padding.valid => convOutputSize N M (stride a) (dil a)
    | Padding.same => convOutputSize (N + 2 * ((M - 1) / 2 * dil a)) M (stride a) (dil a)
    | Padding.pairs lohi => convOutputSize (N + (lohi a).1 + (lohi a).2) M (stride a) (dil a)

/-- Embedding of `convolve(D, image, filter_image, is_torus, stride, padding,
None, rhs_dilation)` (`lhs_dilation=None` throughout, as in every claim):
expand the image per the padding mode, pre-tensor-product-expand image and
filter to the common index type `ι₁ ⊕ ι₂`, and correlate each tensor component
independently (`feature_group_count = channel_length`).  The output pixel at
`x` is read from window positions `x·stride + dil·q`.  The result is the
total-function view of the output array; the physical array is its
restriction to the `convolveOutputSize` grid. -/
def convolve (D N M : ℕ) [NeZero N] {ι₁ ι₂ : Type}
    (A : (Fin D → Fin N) → (ι₁ → Fin D) → ℤ)
    (F : (Fin D → Fin M) → (ι₂ → Fin D) → ℤ)
    (isTorus : Bool) (stride dil : Fin D → ℕ) (pad : Option (Padding D)) :
    (Fin D → ℤ) → ((ι₁ ⊕ ι₂) → Fin D) → ℤ :=
  fun x t =>
    ∑ q : Fin D → Fin M,
      pre_tensor_product_expand_fst ι₂ (paddedRead D N M A isTorus pad dil)
        (fun a => x a * stride a + dil a * (q a : ℤ)) t *
      pre_tensor_product_expand_snd ι₁ F q t

/-- Embedding of `conv_contract_image_expand(D, image, conv_filter)`: tensor
product of the order-`ki` image with an all-ones order-`k'` tensor, giving the
filter's full order `ki + k'`. -/
def conv_contract_image_expand {σ : Type} (D ki kp : ℕ)
    (A : σ → (Fin ki → Fin D) → ℤ) : σ → (Fin (ki + kp) → Fin D) → ℤ :=
  fun x j => A x (fun t => j (Fin.castAdd kp t)) * 1

/-- Embedding of `convolve_contract(D, image, filter_image, is_torus, stride,
padding, None, rhs_dilation)`: pad the image as in `convolve`, expand it to
the filter's full order with `conv_contract_image_expand`, correlate each of
the `D^(ki+kp)` tensor components independently, then sum over the first `ki`
tensor axes (the fused contraction). -/
def convolve_contract (D N M : ℕ) [NeZero N] (ki kp : ℕ)
    (A : (Fin D → Fin N) → (Fin ki → Fin D) → ℤ)
    (F : (Fin D → Fin M) → (Fin (ki + kp) → Fin D) → ℤ)
    (isTorus : Bool) (stride dil : Fin D → ℕ) (pad : Option (Padding D)) :
    (Fin D → ℤ) → (Fin kp → Fin D) → ℤ :=
  fun x j2 =>
    ∑ a : Fin ki → Fin D,
      ∑ q : Fin D → Fin M,
        conv_contract_image_expand D ki kp (paddedRead D N M A isTorus pad dil)
          (fun b => x b * stride b + dil b * (q b : ℤ)) (Fin.addCases a j2) *
        F q (Fin.addCases a j2)

/-- The right-hand side of claim C3, following the claim's own reading:
`multicontract` applied to `convolve`'s output with contraction pairs
`((0,ki), (1,ki+1), …, (ki-1, 2·ki-1))` and `idx_shift = D`, i.e. the
generalized trace summing each image tensor axis `t` against filter tensor
axis `t`, keeping the filter's trailing `kp` axes in order. -/
def convolve_then_contract (D N M : ℕ) [NeZero N] (ki kp : ℕ)
    (A : (Fin D → Fin N) → (Fin ki → Fin D) → ℤ)
    (F : (Fin D → Fin M) → (Fin (ki + kp) → Fin D) → ℤ)
    (isTorus : Bool) (stride dil : Fin D → ℕ) (pad : Option (Padding D)) :
    (Fin D → ℤ) → (Fin kp → Fin D) → ℤ :=
  fun x j2 =>
    ∑ a : Fin ki → Fin D,
      convolve D N M A F isTorus stride dil pad x (Sum.elim a (Fin.addCases a j2))

/-- Modelled from the spec (claim C4): the exact circular (wrap-around)
correlation of the image with the (dilated) filter. -/
def circularCorrelation (D N M d : ℕ) [NeZero N] {ι₁ ι₂ : Type}
    (A : (Fin D → Fin N) → (ι₁ → Fin D) → ℤ)
    (F : (Fin D → Fin M) → (ι₂ → Fin D) → ℤ) :
    (Fin D → Fin N) → ((ι₁ ⊕ ι₂) → Fin D) → ℤ :=
  fun p t =>
    ∑ q : Fin D → Fin M,
      A (fun a => modIdx N ((p a : ℤ) + d * q a - d * ((M - 1) / 2 : ℕ)))
        (fun u => t (Sum.inl u)) *
      F q (fun u => t (Sum.inr u))

/-- The coordinate reflection `v ↦ N - 1 - v` on the grid. -/
def flipCoord (N : ℕ) [NeZero N] (v : Fin N) : Fin N :=
  ⟨N - 1 - (v : ℕ), by have := v.isLt; have := Nat.pos_of_ne_zero (NeZero.ne N); omega⟩

/-- The closed form of the spatial action of a signed permutation matrix on
grid keys (about the center `(N-1)/2`): coordinate `c` of the rotated key is
`p (f⁻¹ c)` when `ε c = 1` and its reflection when `ε c = -1`. -/
def rotGrid (D N : ℕ) [NeZero N] (f : Equiv.Perm (Fin D)) (ε : Fin D → ℤ)
    (p : Fin D → Fin N) : Fin D → Fin N :=
  fun c => if ε c = 1 then p (f.symm c) else flipCoord N (p (f.symm c))

/-- The same spatial action on unconstrained integer keys (used for the
zero-padded convolution cases, where no wrap-around is applied). -/
def rotZ (D : ℕ) (N : ℕ) (f : Equiv.Perm (Fin D)) (ε : Fin D → ℤ)
    (x : Fin D → ℤ) : Fin D → ℤ :=
  fun c => if ε c = 1 then x (f.symm c) else (N : ℤ) - 1 - x (f.symm c)

/-- Embedding of the `GeometricImage` value type: dimension and side length as
type indices, tensor order `k`, stored parity, torus flag and the data block. -/
structure GeometricImage (D N : ℕ) where
  k : ℕ
  parity : ℕ
  is_torus : Bool
  data : (Fin D → Fin N) → (Fin k → Fin D) → ℤ

/-- Embedding of `GeometricImage.__init__(data, parity, D, is_torus)`: the
shape validation is carried by the types, and the parity is stored reduced
modulo 2 (`self.parity = parity % 2`). -/
def GeometricImage.make (D N : ℕ) (k : ℕ)
    (data : (Fin D → Fin N) → (Fin k → Fin D) → ℤ)
    (parity : ℕ) (is_torus : Bool) : GeometricImage D N :=
  ⟨k, parity % 2, is_torus, data⟩

/-- Embedding of `GeometricImage.__mul__` in the image case: the pixelwise
tensor product via `mul`, constructed with the sum of the parities (which
`__init__` then reduces modulo 2). -/
def GeometricImage.gmul {D N : ℕ} [NeZero N] (A B : GeometricImage D N) :
    GeometricImage D N :=
  GeometricImage.make D N (A.k + B.k)
    (fun x t => mul D N A.data B.data x (fun s => t (finSumFinEquiv s)))
    (A.parity + B.parity) A.is_torus

/-- The lexicographic (non-strict) order on index pairs, the order `sorted`
uses on the 2-element lists `sorted([x, y])`. -/
def pairLE (a b : ℕ × ℕ) : Prop :=
  a.1 < b.1 ∨ (a.1 = b.1 ∧ a.2 ≤ b.2)

instance : DecidableRel pairLE := fun _a _b =>
  inferInstanceAs (Decidable (_ ∨ _))

instance : IsTotal (ℕ × ℕ) pairLE :=
  ⟨by intro a b; unfold pairLE; omega⟩

instance : IsTrans (ℕ × ℕ) pairLE :=
  ⟨by intro a b c; unfold pairLE; omega⟩

instance : IsAntisymm (ℕ × ℕ) pairLE :=
  ⟨by intro a b h1 h2; unfold pairLE at h1 h2
      have : a.1 = b.1 ∧ a.2 = b.2 := by omega
      exact Prod.ext this.1 this.2⟩

/-- The row order `np.unique(..., axis=0)` sorts by: lexicographic comparison
of the flattened rows, here phrased on lists of pairs (Boolean-valued; only
its decidability is ever used — the claims do not depend on the output
order). -/
def rowLEb : List (ℕ × ℕ) → List (ℕ × ℕ) → Bool
  | [], _ => true
  | _ :: _, [] => false
  | a :: as, b :: bs =>
    if a.1 < b.1 ∨ (a.1 = b.1 ∧ a.2 < b.2) then true
    else if a = b then rowLEb as bs else false

/-- Propositional form of `rowLEb`. -/
def rowLE (r s : List (ℕ × ℕ)) : Prop := rowLEb r s = true

instance : DecidableRel rowLE := fun _r _s =>
  inferInstanceAs (Decidable (_ = true))

/-- `sorted([x, y])` on a pair. -/
def sortPair (p : ℕ × ℕ) : ℕ × ℕ := if p.1 ≤ p.2 then p else (p.2, p.1)

/-- Embedding of `get_contraction_indices(initial_k, final_k)` with the
default empty `swappable_idxs` (the case all claims quantify over):
1. all `(initial_k - final_k)/2`-element combinations of the 2-element
   combinations of `range(initial_k)` (as subsequences of the lexicographic
   pair list, matching `itertools.combinations`; the enumeration order is
   immaterial because of the final sort);
2. drop combinations re-using an index;
3. canonicalize: sort each pair and sort the pair list;
4. `np.unique(axis=0)`: sort the rows lexicographically and deduplicate. -/
def get_contraction_indices (initial_k final_k : ℕ) : List (List (ℕ × ℕ)) :=
  let n := (initial_k - final_k) / 2
  let pairs := (List.range initial_k).flatMap
    (fun i => ((List.range initial_k).drop (i + 1)).map (fun j => (i, j)))
  let combos := List.sublistsLen n pairs
  let uniquePairs := combos.filter
    (fun c => decide (c.flatMap (fun p => [p.1, p.2])).Nodup)
  let canon := uniquePairs.map (fun c => List.insertionSort pairLE (c.map sortPair))
  (List.insertionSort rowLE canon).dedup

/-- The unordered-pair view of one contraction (claim C6 compares entries "as
sets of unordered index pairs"). -/
def pairSymSet (r : List (ℕ × ℕ)) : Finset (Sym2 ℕ) :=
  (r.map (fun p => Sym2.mk p)).toFinset

/-- A raw array value for `multicontract`: a shape together with a total
function from index lists to entries (the physical array is the restriction of
`data` to in-range index lists). -/
structure Tensor where
  shape : List ℕ
  data : List ℕ → ℤ

/-- Embedding of the module constant `LETTERS`, including its duplicated
letter: the source string reads `…uvwxyx` (positions 23 and 25 are both `x`)
before the capital letters. -/
def LETTERS : List Char :=
  "abcdefghijklmnopqrstuvwxyxABCDEFGHIJKLMNOPQRSTUVWXYZ".toList

/-- The letters of the einsum string the module-level `times_group_element`
builds for a rank-`D + k` data array — `LETTERS[:D+k]` for the data operand,
then `LETTERS[i+13] + LETTERS[i+D]` (row and column letters) for the `i`-th
copy of `gg` — with the commas dropped. -/
def rotEinstrLetters (D k : ℕ) : List Char :=
  (List.range (D + k)).map (fun p => LETTERS.getD p ' ') ++
    (List.range k).flatMap
      (fun i => [LETTERS.getD (i + 13) ' ', LETTERS.getD (i + D) ' '])

/-- The output rank of that einsum in implicit mode: the number of letters
occurring exactly once, i.e. the axes `jnp.einsum` keeps.  For `k = 0` the
code skips the einsum and the array keeps its rank `D`. -/
def rotOutputRank (D k : ℕ) : ℕ :=
  if k = 0 then D
  else ((rotEinstrLetters D k).dedup.filter
    (fun c => (rotEinstrLetters D k).count c == 1)).length

/-- The tensor order of the `GeometricImage` the class method
`times_group_element` constructs from the rotated data (the constructor
derives `k` as rank − D). -/
def rotResultOrder (D k : ℕ) : ℕ := rotOutputRank D k - D

/-- The einsum string `multicontract` builds: one letter per axis
(`LETTERS[:dimensions]`), then for the `i`-th contraction pair both shifted
positions are overwritten with `LETTERS[-(i+1)]`. -/
def buildEinstr (n : ℕ) (pairs : List (ℕ × ℕ)) (shift : ℕ) : List Char :=
  pairs.enum.foldl
    (fun ls ip =>
      (ls.set (ip.2.1 + shift) (LETTERS.getD (52 - (ip.1 + 1)) ' ')).set
        (ip.2.2 + shift) (LETTERS.getD (52 - (ip.1 + 1)) ' '))
    ((List.range n).map (fun p => LETTERS.getD p ' '))

/-- All index lists for a list of axis ranges (row-major enumeration). -/
def cartList : List ℕ → List (List ℕ)
  | [] => [[]]
  | r :: rs => (List.range r).flatMap (fun v => (cartList rs).map (fun vs => v :: vs))

/-- Model of single-operand implicit-mode `jnp.einsum`: letters occurring
exactly once are the output axes, ordered by their letter (alphabetically);
letters occurring more than once are summed over, the input being read on
their diagonal.  Each summed letter ranges over the axis size at its first
occurrence.  (The internal enumeration order of the summed letters — here
descending by letter — does not affect the sums.) -/
def einsumOne (ls : List Char) (t : Tensor) : Tensor :=
  let n := ls.length
  let freePos := List.insertionSort (fun p q => ls.getD p ' ' ≤ ls.getD q ' ')
    ((List.range n).filter (fun p => ls.count (ls.getD p ' ') == 1))
  let sumLetters := List.insertionSort (fun a b : Char => b ≤ a)
    ((ls.filter (fun c => 2 ≤ ls.count c)).dedup)
  let ranges := sumLetters.map (fun c => t.shape.getD (ls.indexOf c) 0)
  { shape := freePos.map (fun p => t.shape.getD p 0),
    data := fun out =>
      ((cartList ranges).map (fun vs =>
        t.data ((List.range n).map (fun p =>
          if ls.count (ls.getD p ' ') == 1 then out.getD (freePos.indexOf p) 0
          else vs.getD (sumLetters.indexOf (ls.getD p ' ')) 0)))).sum }

/-- Embedding of `multicontract(data, indices, idx_shift)`: the two
assertions, in source order, then the einsum over the dynamically built
letter string. -/
def multicontract (t : Tensor) (indices : List (ℕ × ℕ)) (idx_shift : ℕ) :
    Except String Tensor :=
  let dimensions := t.shape.length
  if ¬ dimensions + indices.length < 52 then
    Except.error "multicontract: too many dimensions for the einsum alphabet"
  else if ¬ 2 ≤ dimensions then
    Except.error "multicontract: data must have at least 2 dimensions"
  else Except.ok (einsumOne (buildEinstr dimensions indices idx_shift) t)

/-- Modelled from the spec: the generalized trace — "sum over the diagonal of
each specified axis pair" (pairs shifted by `idx_shift`) — keeping the free
axes in their original order. -/
def genTrace (t : Tensor) (indices : List (ℕ × ℕ)) (idx_shift : ℕ) : Tensor :=
  let n := t.shape.length
  let contr := indices.flatMap (fun pr => [pr.1 + idx_shift, pr.2 + idx_shift])
  let freePos := (List.range n).filter (fun p => !(contr.contains p))
  { shape := freePos.map (fun p => t.shape.getD p 0),
    data := fun out =>
      ((cartList (indices.map (fun pr => t.shape.getD (pr.1 + idx_shift) 0))).map
        (fun vs =>
          t.data ((List.range n).map (fun p =>
            match indices.findIdx? (fun pr =>
                pr.1 + idx_shift == p || pr.2 + idx_shift == p) with
            | some i => vs.getD i 0
            | none => out.getD (freePos.indexOf p) 0)))).sum }

/-- One `Layer` block: a `jnp` array of shape
`(channels,) + (N,)*D + (D,)*k`, stored as its shape plus row-major flattened
values. -/
structure Block where
  shape : List ℕ
  vals : List ℤ
deriving DecidableEq

/-- Embedding of `Layer`: dimension, torus flag, and the dict of blocks keyed
by `(k, parity)` — an association list in insertion order (Python dicts
preserve insertion order).  The attribute `N` is derived (see `Layer.sideN`). -/
structure Layer where
  D : ℕ
  is_torus : Bool
  blocks : List ((ℕ × ℕ) × Block)
deriving DecidableEq

/-- The keys of a layer. -/
def Layer.layerKeys (L : Layer) : List (ℕ × ℕ) := L.blocks.map Prod.fst

/-- Embedding of `Layer.empty()`. -/
def Layer.emptyLayer (L : Layer) : Layer := ⟨L.D, L.is_torus, []⟩

/-- The derived `Layer.N` attribute: `shape[1]` of the first block (shape
`(channels, (N,)*D, (D,)*k)`), `none` for an empty layer. -/
def Layer.sideN (L : Layer) : Option ℕ :=
  match L.blocks with
  | [] => none
  | (_, b) :: _ => b.shape.get? 1

/-- The spatial side length recorded in one block's shape (`shape[1]`). -/
def Block.side (b : Block) : Option ℕ := b.shape.get? 1

/-- Embedding of `jnp.concatenate((b0, b))` along axis 0: shapes must agree on
all trailing axes; values concatenate (row-major flattening of an axis-0
concatenation is the concatenation of the flattenings). -/
def concatBlocks (b0 b : Block) : Except String Block :=
  if b0.shape.tail = b.shape.tail then
    Except.ok ⟨(b0.shape.headI + b.shape.headI) :: b0.shape.tail, b0.vals ++ b.vals⟩
  else Except.error "concatenate: all dimensions except axis 0 must match"

/-- Replace the block at `key` by its concatenation with `b`, keeping the
dict position (Python dict assignment to an existing key keeps its slot). -/
def updateBlocks : List ((ℕ × ℕ) × Block) → (ℕ × ℕ) → Block →
    Except String (List ((ℕ × ℕ) × Block))
  | [], _, _ => Except.ok []
  | (key0, b0) :: rest, key, b =>
    if key0 = key then (concatBlocks b0 b).map (fun b1 => (key0, b1) :: rest)
    else (updateBlocks rest key b).map (fun bs => (key0, b0) :: bs)

/-- Embedding of `Layer.append(k, parity, image_block)`: for `k > 0` assert
`image_block.shape[-k:] == (D,)*k` (only this "very light shape checking");
concatenate along axis 0 if the key exists, else create the key at the end. -/
def Layer.appendBlock (L : Layer) (k parity : ℕ) (b : Block) : Except String Layer :=
  if k > 0 ∧ ¬ b.shape.drop (b.shape.length - k) = List.replicate k L.D then
    Except.error "append: trailing tensor axes must be (D,)*k"
  else if (k, parity) ∈ L.layerKeys then
    (updateBlocks L.blocks (k, parity) b).map (fun bs => ⟨L.D, L.is_torus, bs⟩)
  else
    Except.ok ⟨L.D, L.is_torus, L.blocks ++ [((k, parity), b)]⟩

/-- Embedding of `Layer.__add__`: the dimensions and torus flags must match
(assertions), then every block of the right layer is appended to a copy of the
left one. -/
def Layer.addLayer (L1 L2 : Layer) : Except String Layer :=
  if L1.D = L2.D ∧ L1.is_torus = L2.is_torus then
    L2.blocks.foldlM (fun acc kb => acc.appendBlock kb.1.1 kb.1.2 kb.2) L1
  else Except.error "add: layer dimension or torus flag mismatch"

/-- Embedding of `Layer.to_vector()`: concatenate the flattened blocks in
dict order, starting from `jnp.zeros(0)`. -/
def Layer.to_vector (L : Layer) : List ℤ :=
  L.blocks.foldl (fun acc kb => acc ++ kb.2.vals) []

/-- The loop body of `Layer.from_vector`: walk the template's blocks in dict
order, slicing `img.size` (= the shape's product) entries at a running offset
and appending them reshaped to `img.shape` (a numpy reshape errors when the
slice is too short). -/
def fromVectorAux (v : List ℤ) : List ((ℕ × ℕ) × Block) → ℕ → Layer →
    Except String Layer
  | [], _, out => Except.ok out
  | (key, img) :: rest, idx, out =>
    let size := img.shape.prod
    let slice := (v.drop idx).take size
    if slice.length = size then
      match out.appendBlock key.1 key.2 ⟨img.shape, slice⟩ with
      | Except.ok out1 => fromVectorAux v rest (idx + size) out1
      | Except.error e => Except.error e
    else Except.error "from_vector: not enough entries to reshape"

/-- Embedding of `Layer.from_vector(vector, layer)`. -/
def Layer.from_vector (v : List ℤ) (L : Layer) : Except String Layer :=
  fromVectorAux v L.blocks 0 L.emptyLayer

/-- The shape a layer block must have to respect the layer invariant claimed
in C8: `(channels,) + (N,)*D + (D,)*k` for some channel count. -/
def GoodBlock (D N k : ℕ) (b : Block) : Prop :=
  ∃ c : ℕ, b.shape = c :: (List.replicate D N ++ List.replicate k D)

/-- All blocks of a layer have the claimed shape for their key and a common
side length `N`. -/
def LayerSharesN (L : Layer) (N : ℕ) : Prop :=
  ∀ kb ∈ L.blocks, GoodBlock L.D N kb.1.1 kb.2

/-- The capital letter assigned to the `i`-th contraction pair
(`LETTERS[-(i+1)]`). -/
def capLetter (i : ℕ) : Char := LETTERS.getD (51 - i) ' '

/-- The value of the einsum string `buildEinstr` produces when the contracted
positions are distinct: one letter per axis, free axes keeping their
alphabet letter and each contracted axis carrying its pair's capital. -/
def canonEinstr (n s : ℕ) (ps : List (ℕ × ℕ)) : List Char :=
  (List.range n).map (fun p =>
    match ps.findIdx? (fun pr => pr.1 + s == p || pr.2 + s == p) with
    | some i => capLetter i
    | none => LETTERS.getD p ' ')

instance : IsAntisymm ℕ (· < ·) :=
  ⟨fun a _b h1 h2 => absurd (lt_trans h1 h2) (lt_irrefl a)⟩

instance : IsTotal Char (fun a b : Char => b ≤ a) :=
  ⟨fun a b => le_total b a⟩

instance : IsTrans Char (fun a b : Char => b ≤ a) :=
  ⟨fun _a _b _c h1 h2 => le_trans h2 h1⟩

instance : IsAntisymm Char (fun a b : Char => b ≤ a) :=
  ⟨fun _a _b h1 h2 => le_antisymm h2 h1⟩

lemma signTuples_length (n : ℕ) : (signTuples n).length = 2 ^ n := by
  induction n with
  | zero => rfl
  | succ n ih =>
    simp [signTuples, List.flatMap_cons, List.flatMap_nil, ih]
    ring

lemma mem_signTuples {n : ℕ} {s : List ℤ} :
    s ∈ signTuples n ↔ s.length = n ∧ ∀ x ∈ s, x = 1 ∨ x = -1 := by
  induction n generalizing s with
  | zero =>
    simp only [signTuples, List.mem_singleton]
    constructor
    · rintro rfl; simp
    · rintro ⟨h, -⟩; exact List.length_eq_zero.mp h
  | succ n ih =>
    simp only [signTuples, List.mem_flatMap, List.mem_map]
    constructor
    · rintro ⟨a, ha, t, ht, rfl⟩
      obtain ⟨hlen, hall⟩ := ih.mp ht
      refine ⟨by simp [hlen], ?_⟩
      intro x hx
      rcases List.mem_cons.mp hx with rfl | hx
      · simpa using ha
      · exact hall x hx
    · rintro ⟨hlen, hall⟩
      cases s with
      | nil => simp at hlen
      | cons a t =>
        refine ⟨a, by simpa using hall a (by simp), t, ih.mpr ⟨by simpa using hlen, ?_⟩, rfl⟩
        exact fun x hx => hall x (List.mem_cons_of_mem a hx)

lemma list_sum_map_const {α : Type} (l : List α) (c : ℕ) :
    (l.map (fun _ => c)).sum = l.length * c := by
  induction l with
  | nil => simp
  | cons a t ih => simp [ih]; ring

lemma make_all_operators_length (D : ℕ) :
    (make_all_operators D).length = Nat.factorial D * 2 ^ D := by
  unfold make_all_operators
  rw [List.length_flatMap]
  have : (List.map
      (List.length ∘ fun M => (signTuples D).map (fun s => matMul M (diagMat D s)))
      ((List.range D).permutations.map (permutation_matrix_from_sequence D))) =
      ((List.range D).permutations.map (permutation_matrix_from_sequence D)).map
        (fun _ => 2 ^ D) := by
    refine List.map_congr_left ?_
    intro M _
    simp [signTuples_length]
  rw [this, list_sum_map_const, List.length_map, List.length_permutations,
    List.length_range]

lemma matMul_perm_diag (D : ℕ) (seq : List ℕ) (s : List ℤ) (i j : Fin D) :
    matMul (permutation_matrix_from_sequence D seq) (diagMat D s) i j =
      if (j : ℕ) = seq.getD i 0 then s.getD j 0 else 0 := by
  unfold matMul permutation_matrix_from_sequence diagMat
  rw [Finset.sum_eq_single j]
  · by_cases h : (j : ℕ) = seq.getD i 0 <;> simp [h]
  · intro b _ hb
    simp [hb]
  · simp

lemma mem_make_all_operators {D : ℕ} {g : Mat D} :
    g ∈ make_all_operators D ↔ IsSignedPerm g := by
  constructor
  · intro hg
    unfold make_all_operators at hg
    rw [List.mem_flatMap] at hg
    obtain ⟨M, hM, hg⟩ := hg
    rw [List.mem_map] at hM
    obtain ⟨seq, hseq, rfl⟩ := hM
    rw [List.mem_map] at hg
    obtain ⟨s, hs, rfl⟩ := hg
    rw [List.mem_permutations] at hseq
    have hlen : seq.length = D := by
      simpa [List.length_range] using hseq.length_eq
    have hmem : ∀ x ∈ seq, x < D := by
      intro x hx
      exact List.mem_range.mp (hseq.mem_iff.mp hx)
    have hnd : seq.Nodup := hseq.nodup_iff.mpr (List.nodup_range D)
    obtain ⟨hslen, hsall⟩ := mem_signTuples.mp hs
    have hget : ∀ i : Fin D, seq.getD (i : ℕ) 0 < D := by
      intro i
      have hi : (i : ℕ) < seq.length := by rw [hlen]; exact i.isLt
      rw [List.getD_eq_getElem seq 0 hi]
      exact hmem _ (List.getElem_mem hi)
    set f0 : Fin D → Fin D := fun i => ⟨seq.getD (i : ℕ) 0, hget i⟩ with hf0
    have hinj : Function.Injective f0 := by
      intro a b hab
      have ha : (a : ℕ) < seq.length := by rw [hlen]; exact a.isLt
      have hb : (b : ℕ) < seq.length := by rw [hlen]; exact b.isLt
      have hval : seq.getD (a : ℕ) 0 = seq.getD (b : ℕ) 0 := congrArg Fin.val hab
      rw [List.getD_eq_getElem seq 0 ha, List.getD_eq_getElem seq 0 hb] at hval
      exact Fin.ext ((List.Nodup.getElem_inj_iff hnd).mp hval)
    refine ⟨Equiv.ofBijective f0 (Finite.injective_iff_bijective.mp hinj),
      fun j => s.getD (j : ℕ) 0, ?_, ?_⟩
    · intro j
      have hj : (j : ℕ) < s.length := by rw [hslen]; exact j.isLt
      show s.getD (j : ℕ) 0 = 1 ∨ s.getD (j : ℕ) 0 = -1
      rw [List.getD_eq_getElem s 0 hj]
      exact hsall _ (List.getElem_mem hj)
    · funext i j
      rw [matMul_perm_diag]
      unfold signedPermMat
      have : ((j : ℕ) = seq.getD (i : ℕ) 0) ↔ (j = Equiv.ofBijective f0
          (Finite.injective_iff_bijective.mp hinj) i) := by
        simp only [Equiv.ofBijective_apply, hf0]
        exact ⟨fun h => Fin.ext h, fun h => congrArg Fin.val h⟩
      by_cases h : (j : ℕ) = seq.getD (i : ℕ) 0
      · rw [if_pos h, if_pos (this.mp h)]
      · rw [if_neg h, if_neg (fun hc => h (this.mpr hc))]
  · rintro ⟨f, ε, hε, rfl⟩
    unfold make_all_operators
    rw [List.mem_flatMap]
    refine ⟨permutation_matrix_from_sequence D ((List.finRange D).map (fun i => ((f i) : ℕ))),
      ?_, ?_⟩
    · rw [List.mem_map]
      refine ⟨(List.finRange D).map (fun i => ((f i) : ℕ)), ?_, rfl⟩
      rw [List.mem_permutations]
      have h1 : ((List.finRange D).map f).Nodup :=
        (List.nodup_finRange D).map f.injective
      have h2 : ((List.finRange D).map f) ⊆ List.finRange D := by
        intro x _
        exact List.mem_finRange x
      have h3 : ((List.finRange D).map f).Subperm (List.finRange D) :=
        List.subperm_of_subset h1 h2
      have h4 : ((List.finRange D).map f).Perm (List.finRange D) :=
        h3.perm_of_length_le (by simp)
      have h5 : (((List.finRange D).map f).map Fin.val).Perm
          ((List.finRange D).map Fin.val) := h4.map Fin.val
      have h6 : (List.finRange D).map (Fin.val) = List.range D := by
        apply List.ext_getElem <;> simp
      rw [List.map_map] at h5
      rw [h6] at h5
      exact h5
    · rw [List.mem_map]
      refine ⟨(List.finRange D).map (fun j => ε j), ?_, ?_⟩
      · rw [mem_signTuples]
        constructor
        · simp
        · intro x hx
          rw [List.mem_map] at hx
          obtain ⟨j, -, rfl⟩ := hx
          exact hε j
      · funext i j
        rw [matMul_perm_diag]
        unfold signedPermMat
        have hi : (i : ℕ) < ((List.finRange D).map (fun i => ((f i) : ℕ))).length := by
          simp
        have hj : (j : ℕ) < ((List.finRange D).map (fun j => ε j)).length := by
          simp
        have e1 : ((List.finRange D).map (fun i => ((f i) : ℕ))).getD (i : ℕ) 0 =
            ((f i) : ℕ) := by
          rw [List.getD_eq_getElem _ 0 hi, List.getElem_map]
          congr 1
          rw [List.getElem_finRange]
          exact Fin.ext (by simp)
        have e2 : ((List.finRange D).map (fun j => ε j)).getD (j : ℕ) 0 = ε j := by
          rw [List.getD_eq_getElem _ 0 hj, List.getElem_map]
          congr 1
          rw [List.getElem_finRange]
          exact Fin.ext (by simp)
        rw [e1, e2]
        have : ((j : ℕ) = ((f i) : ℕ)) ↔ (j = f i) :=
          ⟨fun h => Fin.ext h, fun h => congrArg Fin.val h⟩
        by_cases h : (j : ℕ) = ((f i) : ℕ)
        · rw [if_pos h, if_pos (this.mp h)]
        · rw [if_neg h, if_neg (fun hc => h (this.mpr hc))]

lemma IsSignedPerm.matMul_closed {D : ℕ} {g1 g2 : Mat D}
    (h1 : IsSignedPerm g1) (h2 : IsSignedPerm g2) : IsSignedPerm (matMul g1 g2) := by
  obtain ⟨f1, e1, he1, rfl⟩ := h1
  obtain ⟨f2, e2, he2, rfl⟩ := h2
  refine ⟨f1.trans f2, fun j => e2 j * e1 (f2.symm j), ?_, ?_⟩
  · intro j
    rcases he2 j with h | h <;> rcases he1 (f2.symm j) with h' | h' <;>
      simp [h, h']
  · funext i j
    unfold matMul signedPermMat
    rw [Finset.sum_eq_single (f1 i)]
    · by_cases h : j = f2 (f1 i)
      · subst h
        simp [Equiv.trans_apply, Equiv.symm_apply_apply, mul_comm]
      · simp [h, Equiv.trans_apply]
    · intro b _ hb
      rw [if_neg hb, zero_mul]
    · intro hmem
      exact absurd (Finset.mem_univ _) hmem

lemma IsSignedPerm.orthogonal {D : ℕ} {g : Mat D} (h : IsSignedPerm g) :
    matMul g (matTranspose g) = matId D := by
  obtain ⟨f, ε, hε, rfl⟩ := h
  funext i j
  unfold matMul matTranspose signedPermMat matId
  rw [Finset.sum_eq_single (f i)]
  · simp only [if_pos rfl]
    by_cases h : i = j
    · subst h
      rw [if_pos rfl, if_pos rfl]
      rcases hε (f i) with h' | h' <;> simp [h']
    · rw [if_neg h, if_neg (fun hc : f i = f j => h (f.injective hc))]
      ring
  · intro b _ hb
    rw [if_neg hb, zero_mul]
  · simp

lemma IsSignedPerm.entries {D : ℕ} {g : Mat D} (h : IsSignedPerm g) (i j : Fin D) :
    g i j = -1 ∨ g i j = 0 ∨ g i j = 1 := by
  obtain ⟨f, ε, hε, rfl⟩ := h
  unfold signedPermMat
  by_cases hc : j = f i
  · rw [if_pos hc]
    rcases hε j with h' | h' <;> simp [h']
  · rw [if_neg hc]
    simp

lemma IsSignedPerm.row_unique {D : ℕ} {g : Mat D} (h : IsSignedPerm g) (i : Fin D) :
    ∃! j, g i j ≠ 0 := by
  obtain ⟨f, ε, hε, rfl⟩ := h
  refine ⟨f i, ?_, ?_⟩
  · show signedPermMat D f ε i (f i) ≠ 0
    unfold signedPermMat
    rw [if_pos rfl]
    rcases hε (f i) with h' | h' <;> simp [h']
  · intro j hj
    by_contra hc
    have h0 : signedPermMat D f ε i j = 0 := by
      unfold signedPermMat
      rw [if_neg hc]
    exact hj h0

lemma IsSignedPerm.col_unique {D : ℕ} {g : Mat D} (h : IsSignedPerm g) (j : Fin D) :
    ∃! i, g i j ≠ 0 := by
  obtain ⟨f, ε, hε, rfl⟩ := h
  refine ⟨f.symm j, ?_, ?_⟩
  · show signedPermMat D f ε (f.symm j) j ≠ 0
    unfold signedPermMat
    rw [if_pos (f.apply_symm_apply j).symm]
    rcases hε j with h' | h' <;> simp [h']
  · intro i hi
    by_cases hc : j = f i
    · rw [hc, Equiv.symm_apply_apply]
    · have h0 : signedPermMat D f ε i j = 0 := by
        unfold signedPermMat
        rw [if_neg hc]
      exact absurd h0 hi

/-- Claim C5: for every positive `D`, `make_all_operators(D)` returns a list
of exactly `2·2^(D-1)·D!` matrices, each with entries in `{-1,0,1}` and exactly
one nonzero entry per row and per column, each orthogonal (`g·gᵀ = I`), and
the returned set is closed under matrix multiplication. -/
theorem claim_C5_make_all_operators (D : ℕ) (hD : 0 < D) :
    (make_all_operators D).length = 2 * 2 ^ (D - 1) * Nat.factorial D ∧
    (∀ g ∈ make_all_operators D,
      (∀ i j, g i j = -1 ∨ g i j = 0 ∨ g i j = 1) ∧
      (∀ i, ∃! j, g i j ≠ 0) ∧ (∀ j, ∃! i, g i j ≠ 0) ∧
      matMul g (matTranspose g) = matId D) ∧
    (∀ g1 ∈ make_all_operators D, ∀ g2 ∈ make_all_operators D,
      matMul g1 g2 ∈ make_all_operators D) := by
  refine ⟨?_, ?_, ?_⟩
  · rw [make_all_operators_length]
    have : 2 * 2 ^ (D - 1) = 2 ^ D := by
      cases D with
      | zero => exact absurd hD (by simp)
      | succ n => rw [Nat.succ_sub_one]; ring
    rw [this]
    ring
  · intro g hg
    have h := mem_make_all_operators.mp hg
    exact ⟨h.entries, h.row_unique, h.col_unique, h.orthogonal⟩
  · intro g1 h1 g2 h2
    exact mem_make_all_operators.mpr
      ((mem_make_all_operators.mp h1).matMul_closed (mem_make_all_operators.mp h2))

/-- Witness for claim C5 at the concrete dimension `D = 2`. -/
theorem claim_C5_make_all_operators_witness :
    0 < 2 ∧
    ((make_all_operators 2).length = 2 * 2 ^ (2 - 1) * Nat.factorial 2 ∧
    (∀ g ∈ make_all_operators 2,
      (∀ i j, g i j = -1 ∨ g i j = 0 ∨ g i j = 1) ∧
      (∀ i, ∃! j, g i j ≠ 0) ∧ (∀ j, ∃! i, g i j ≠ 0) ∧
      matMul g (matTranspose g) = matId 2) ∧
    (∀ g1 ∈ make_all_operators 2, ∀ g2 ∈ make_all_operators 2,
      matMul g1 g2 ∈ make_all_operators 2)) :=
  ⟨by decide, claim_C5_make_all_operators 2 (by decide)⟩

/-- Claim C10: the `GeometricImage` constructor reduces the supplied parity
modulo 2 before storing it, so every constructed image has parity in `{0,1}`
even when the caller passes a larger integer; in particular the pixelwise
tensor product of two parity-1 images (`__mul__` passes the sum of the
parities to the constructor) has stored parity 0, and any construction that
sums parities stores the sum modulo 2. -/
theorem claim_C10_parity_mod_two (D N : ℕ) [NeZero N] :
    (∀ (k : ℕ) (data : (Fin D → Fin N) → (Fin k → Fin D) → ℤ)
        (parity : ℕ) (is_torus : Bool),
      (GeometricImage.make D N k data parity is_torus).parity = parity % 2 ∧
      (GeometricImage.make D N k data parity is_torus).parity < 2) ∧
    (∀ A B : GeometricImage D N,
      (A.gmul B).parity = (A.parity + B.parity) % 2) ∧
    (∀ A B : GeometricImage D N,
      A.parity = 1 → B.parity = 1 → (A.gmul B).parity = 0) := by
  refine ⟨?_, ?_, ?_⟩
  · intro k data parity is_torus
    exact ⟨rfl, Nat.mod_lt _ (by omega)⟩
  · intro A B
    rfl
  · intro A B hA hB
    show (A.parity + B.parity) % 2 = 0
    rw [hA, hB]

/-- Witness for claim C10: concrete parity-1 images in `D = 2`, `N = 1`,
whose product has stored parity 0, and a constructor call with parity 7
stored as 1. -/
theorem claim_C10_parity_mod_two_witness :
    ((GeometricImage.make 2 1 0 (fun _ _ => 3) 7 true).parity = 7 % 2 ∧
      (GeometricImage.make 2 1 0 (fun _ _ => 3) 7 true).parity < 2) ∧
    ((GeometricImage.make 2 1 0 (fun _ _ => 3) 1 true).gmul
        (GeometricImage.make 2 1 0 (fun _ _ => 5) 1 true)).parity =
      ((GeometricImage.make 2 1 0 (fun _ _ => 3) 1 true).parity +
        (GeometricImage.make 2 1 0 (fun _ _ => 5) 1 true).parity) % 2 ∧
    ((GeometricImage.make 2 1 0 (fun _ _ => 3) 1 true).gmul
        (GeometricImage.make 2 1 0 (fun _ _ => 5) 1 true)).parity = 0 :=
  ⟨(claim_C10_parity_mod_two 2 1).1 0 (fun _ _ => 3) 7 true,
    (claim_C10_parity_mod_two 2 1).2.1 _ _,
    (claim_C10_parity_mod_two 2 1).2.2 _ _ rfl rfl⟩

lemma modIdx_coe (N : ℕ) [NeZero N] (z : ℤ) :
    ((modIdx N z : Fin N) : ℤ) = z % (N : ℤ) := by
  have hN : 0 < (N : ℤ) := by exact_mod_cast Nat.pos_of_ne_zero (NeZero.ne N)
  show (((z % (N : ℤ)).toNat : ℕ) : ℤ) = z % (N : ℤ)
  exact Int.toNat_of_nonneg (Int.emod_nonneg z (by omega))

lemma modIdx_coe_of_lt (N : ℕ) [NeZero N] {z : ℤ} (h0 : 0 ≤ z) (h1 : z < (N : ℤ)) :
    ((modIdx N z : Fin N) : ℤ) = z := by
  rw [modIdx_coe, Int.emod_eq_of_lt h0 h1]

lemma modIdx_self (N : ℕ) [NeZero N] (p : Fin N) : modIdx N ((p : ℕ) : ℤ) = p := by
  apply Fin.ext
  have h1 : ((modIdx N ((p : ℕ) : ℤ) : Fin N) : ℤ) = ((p : ℕ) : ℤ) :=
    modIdx_coe_of_lt N (by positivity) (by exact_mod_cast p.isLt)
  exact_mod_cast h1

lemma modIdx_congr_mod (N : ℕ) [NeZero N] {z1 z2 : ℤ}
    (h : z1 % (N : ℤ) = z2 % (N : ℤ)) : modIdx N z1 = modIdx N z2 := by
  apply Fin.ext
  have h1 := modIdx_coe N z1
  have h2 := modIdx_coe N z2
  omega

lemma zeroExtend_of_inGrid (D N : ℕ) [NeZero N] {ι : Type}
    (A : (Fin D → Fin N) → (ι → Fin D) → ℤ) (x : Fin D → ℤ) (hx : inGrid N x) :
    zeroExtend D N A x = A (fun a => modIdx N (x a)) := by
  unfold zeroExtend
  rw [if_pos hx]

lemma paddedRead_resolved_torus (D N M d : ℕ) [NeZero N] {ι : Type}
    (A : (Fin D → Fin N) → (ι → Fin D) → ℤ) (isTorus : Bool)
    (pad : Option (Padding D)) (hD0 : 0 < D)
    (hpad : resolvePadding isTorus pad = Padding.torus) :
    paddedRead D N M A isTorus pad (fun _ => d) =
      zeroExtend D (N + 2 * ((M - 1) / 2 * d)) (get_torus_expanded D N M d A) := by
  unfold paddedRead
  rw [hpad]
  simp only [dif_pos hD0]
  have hd : (if h : 0 < D then d else 1) = d := dif_pos hD0
  exact congrArg
    (fun x => zeroExtend D (N + 2 * ((M - 1) / 2 * x)) (get_torus_expanded D N M x A)) hd

lemma convolve_torus_apply (D N M d m : ℕ) [NeZero N] {ι₁ ι₂ : Type}
    (A : (Fin D → Fin N) → (ι₁ → Fin D) → ℤ)
    (F : (Fin D → Fin M) → (ι₂ → Fin D) → ℤ)
    (isTorus : Bool) (pad : Option (Padding D)) (hD0 : 0 < D)
    (hpad : resolvePadding isTorus pad = Padding.torus) (hM : M = 2 * m + 1)
    (p : Fin D → Fin N) (t : (ι₁ ⊕ ι₂) → Fin D) :
    convolve D N M A F isTorus (fun _ => 1) (fun _ => d) pad
      (fun a => ((p a : ℕ) : ℤ)) t =
    ∑ q : Fin D → Fin M,
      A (fun a => modIdx N (((p a : ℕ) : ℤ) + d * ((q a : ℕ) : ℤ) - d * m))
        (fun u => t (Sum.inl u)) * F q (fun u => t (Sum.inr u)) := by
  unfold convolve
  rw [paddedRead_resolved_torus D N M d A isTorus pad hD0 hpad]
  refine Finset.sum_congr rfl ?_
  intro q _
  unfold pre_tensor_product_expand_fst pre_tensor_product_expand_snd
  rw [mul_one, one_mul]
  have hm : (M - 1) / 2 = m := by omega
  have hN0 : 0 < (N : ℤ) := by
    exact_mod_cast Nat.pos_of_ne_zero (NeZero.ne N)
  show (zeroExtend D (N + 2 * ((M - 1) / 2 * d)) (get_torus_expanded D N M d A)
      (fun a => ((p a : ℕ) : ℤ) * ((1 : ℕ) : ℤ) + ((d : ℕ) : ℤ) * ((q a : ℕ) : ℤ))
      (fun u => t (Sum.inl u))) * (F q fun u => t (Sum.inr u)) = _
  have hbound : inGrid (N + 2 * ((M - 1) / 2 * d))
      (fun a => ((p a : ℕ) : ℤ) * ((1 : ℕ) : ℤ) + ((d : ℕ) : ℤ) * ((q a : ℕ) : ℤ)) := by
    intro a
    have h1 : ((p a : ℕ) : ℤ) < (N : ℤ) := by exact_mod_cast (p a).isLt
    have h1b : (0 : ℤ) ≤ ((p a : ℕ) : ℤ) := by positivity
    have h2b : (0 : ℤ) ≤ ((q a : ℕ) : ℤ) := by positivity
    have h3 : (d : ℤ) * ((q a : ℕ) : ℤ) ≤ (d : ℤ) * ((M : ℤ) - 1) := by
      have h2 : ((q a : ℕ) : ℤ) < (M : ℤ) := by exact_mod_cast (q a).isLt
      exact mul_le_mul_of_nonneg_left (by omega) (by positivity)
    have h4 : (((M - 1) / 2 * d : ℕ) : ℤ) = (m : ℤ) * (d : ℤ) := by
      push_cast [hm]
      ring
    have h5 : (d : ℤ) * ((M : ℤ) - 1) = 2 * ((m : ℤ) * (d : ℤ)) := by
      have hMZ : (M : ℤ) = 2 * m + 1 := by exact_mod_cast congrArg (Nat.cast : ℕ → ℤ) hM
      rw [hMZ]
      ring
    constructor
    · positivity
    · push_cast [h4]
      linarith [h3, h5, h1]
  rw [zeroExtend_of_inGrid _ _ _ _ hbound]
  unfold get_torus_expanded hashRead
  congr 1
  refine congrFun (congrArg A ?_) _
  funext a
  congr 1
  show ((modIdx (N + 2 * ((M - 1) / 2 * d))
      (((p a : ℕ) : ℤ) * ((1 : ℕ) : ℤ) + ((d : ℕ) : ℤ) * ((q a : ℕ) : ℤ)) :
        Fin (N + 2 * ((M - 1) / 2 * d))) : ℤ) - (((M - 1) / 2 * d : ℕ) : ℤ) =
    ((p a : ℕ) : ℤ) + d * ((q a : ℕ) : ℤ) - d * m
  have hco : ((modIdx (N + 2 * ((M - 1) / 2 * d))
      (((p a : ℕ) : ℤ) * ((1 : ℕ) : ℤ) + ((d : ℕ) : ℤ) * ((q a : ℕ) : ℤ)) :
        Fin (N + 2 * ((M - 1) / 2 * d))) : ℤ) =
      ((p a : ℕ) : ℤ) * ((1 : ℕ) : ℤ) + ((d : ℕ) : ℤ) * ((q a : ℕ) : ℤ) :=
    modIdx_coe_of_lt _ (hbound a).1 (hbound a).2
  rw [hco]
  have h4 : (((M - 1) / 2 * d : ℕ) : ℤ) = (m : ℤ) * (d : ℤ) := by
    push_cast [hm]
    ring
  rw [h4]
  push_cast
  ring

/-- Claim C4: `get_torus_expanded` returns an image of side `N + 2·m·d` whose
pixel at `t` is the original pixel at `(t - m·d) mod N`, the output of
`convolve` with `TORUS` padding at unit stride is `N`-sided, and its values
are exactly the circular (wrap-around) correlation of image and filter. -/
theorem claim_C4_get_torus_expanded (D N M d m : ℕ) [NeZero N]
    {ι₁ ι₂ : Type}
    (A : (Fin D → Fin N) → (ι₁ → Fin D) → ℤ)
    (F : (Fin D → Fin M) → (ι₂ → Fin D) → ℤ)
    (hD : D = 2 ∨ D = 3) (hM : M = 2 * m + 1) (_hd : 1 ≤ d) :
    (∀ (t : Fin D → Fin (N + 2 * ((M - 1) / 2 * d))) (i : ι₁ → Fin D),
      get_torus_expanded D N M d A t i =
        A (fun a => modIdx N ((t a : ℤ) - m * d)) i) ∧
    (∀ a : Fin D, convolveOutputSize N M true (fun _ => 1) (fun _ => d)
      (some Padding.torus) a = N) ∧
    (∀ (p : Fin D → Fin N) (t : (ι₁ ⊕ ι₂) → Fin D),
      convolve D N M A F true (fun _ => 1) (fun _ => d) (some Padding.torus)
        (fun a => ((p a : ℕ) : ℤ)) t = circularCorrelation D N M d A F p t) := by
  have hD0 : 0 < D := by omega
  have hN0 : 0 < N := Nat.pos_of_ne_zero (NeZero.ne N)
  have hm : (M - 1) / 2 = m := by omega
  have hcast : (((M - 1) / 2 * d : ℕ) : ℤ) = (m : ℤ) * (d : ℤ) := by
    push_cast [hm]
    ring
  refine ⟨?_, ?_, ?_⟩
  · intro t i
    unfold get_torus_expanded hashRead
    refine congrFun (congrArg A ?_) _
    funext a
    congr 1
    show (t a : ℤ) - (((M - 1) / 2 * d : ℕ) : ℤ) = (t a : ℤ) - (m : ℤ) * d
    omega
  · intro a
    unfold convolveOutputSize convOutputSize
    simp only [resolvePadding]
    rw [dif_pos hD0]
    have h2 : d * (M - 1) = 2 * ((M - 1) / 2 * d) := by
      have hM1 : M - 1 = 2 * m := by omega
      have hM2 : 2 * m / 2 = m := by omega
      rw [hM1, hM2]
      ring
    rw [h2, Nat.div_one]
    omega
  · intro p t
    rw [convolve_torus_apply D N M d m A F true (some Padding.torus) hD0 rfl hM p t]
    unfold circularCorrelation
    refine Finset.sum_congr rfl ?_
    intro q _
    congr 1
    refine congrFun (congrArg A ?_) _
    funext a
    congr 1
    rw [hm]

/-- Witness for claim C4 at `D = 2`, `N = 2`, `M = 3` (`m = 1`), `d = 1`,
scalar image and filter. -/
theorem claim_C4_get_torus_expanded_witness :
    ((2 : ℕ) = 2 ∨ (2 : ℕ) = 3) ∧ (3 : ℕ) = 2 * 1 + 1 ∧ (1 : ℕ) ≤ 1 ∧
    ((∀ (t : Fin 2 → Fin (2 + 2 * ((3 - 1) / 2 * 1))) (i : Fin 0 → Fin 2),
      get_torus_expanded 2 2 3 1 (fun x _ => (x 0 : ℤ) + 2 * (x 1 : ℤ)) t i =
        (fun x (_ : Fin 0 → Fin 2) => ((x 0 : ℕ) : ℤ) + 2 * ((x 1 : ℕ) : ℤ))
          (fun a => modIdx 2 ((t a : ℤ) - 1 * 1)) i) ∧
    (∀ a : Fin 2, convolveOutputSize 2 3 true (fun _ => 1) (fun _ => 1)
      (some Padding.torus) a = 2) ∧
    (∀ (p : Fin 2 → Fin 2) (t : (Fin 0 ⊕ Fin 0) → Fin 2),
      convolve 2 2 3 (fun x _ => ((x 0 : ℕ) : ℤ) + 2 * ((x 1 : ℕ) : ℤ))
        (fun q _ => ((q 0 : ℕ) : ℤ) - ((q 1 : ℕ) : ℤ)) true (fun _ => 1) (fun _ => 1)
        (some Padding.torus) (fun a => ((p a : ℕ) : ℤ)) t =
      circularCorrelation 2 2 3 1 (fun x _ => ((x 0 : ℕ) : ℤ) + 2 * ((x 1 : ℕ) : ℤ))
        (fun q _ => ((q 0 : ℕ) : ℤ) - ((q 1 : ℕ) : ℤ)) p t)) :=
  ⟨Or.inl rfl, rfl, le_refl 1,
    claim_C4_get_torus_expanded 2 2 3 1 1
      (fun x _ => ((x 0 : ℕ) : ℤ) + 2 * ((x 1 : ℕ) : ℤ))
      (fun q _ => ((q 0 : ℕ) : ℤ) - ((q 1 : ℕ) : ℤ))
      (Or.inl rfl) rfl (le_refl 1)⟩

/-- Claim C3: for every `D ∈ {2,3}`, image block of order `ki`, filter block of
order `ki + kp` (so `ki ≤ kf`), and the same torus/stride/padding/dilation
arguments, the fused `convolve_contract` equals `multicontract` applied to
`convolve`'s output with contraction pairs `((0,ki), (1,ki+1), …)` and
`idx_shift = D`, i.e. convolution followed by contracting each image tensor
index against the filter's first `ki` indices, leaving order `kp`. -/
theorem claim_C3_convolve_contract_fusion (D N M : ℕ) [NeZero N] (ki kp : ℕ)
    (A : (Fin D → Fin N) → (Fin ki → Fin D) → ℤ)
    (F : (Fin D → Fin M) → (Fin (ki + kp) → Fin D) → ℤ)
    (isTorus : Bool) (stride dil : Fin D → ℕ) (pad : Option (Padding D))
    (_hD : D = 2 ∨ D = 3) :
    convolve_contract D N M ki kp A F isTorus stride dil pad =
      convolve_then_contract D N M ki kp A F isTorus stride dil pad := by
  funext x j2
  unfold convolve_contract convolve_then_contract convolve
  refine Finset.sum_congr rfl ?_
  intro a _
  refine Finset.sum_congr rfl ?_
  intro q _
  unfold conv_contract_image_expand pre_tensor_product_expand_fst
    pre_tensor_product_expand_snd
  have harg : (fun u : Fin ki =>
      Fin.addCases (motive := fun _ => Fin D) a j2 (Fin.castAdd kp u)) = a := by
    funext u
    exact Fin.addCases_left u
  rw [harg]
  simp only [mul_one, one_mul]
  rfl

/-- Witness for claim C3 at `D = 2`, `N = 1`, `M = 1`, `ki = 1`, `kp = 1`,
torus padding and unit stride/dilation. -/
theorem claim_C3_convolve_contract_fusion_witness :
    ((2 : ℕ) = 2 ∨ (2 : ℕ) = 3) ∧
    convolve_contract 2 1 1 1 1 (fun _ i => (i 0 : ℤ))
        (fun _ j => (j 0 : ℤ) + 2 * (j 1 : ℤ)) true (fun _ => 1) (fun _ => 1) none =
      convolve_then_contract 2 1 1 1 1 (fun _ i => (i 0 : ℤ))
        (fun _ j => (j 0 : ℤ) + 2 * (j 1 : ℤ)) true (fun _ => 1) (fun _ => 1) none :=
  ⟨Or.inl rfl,
    claim_C3_convolve_contract_fusion 2 1 1 1 1 (fun _ i => (i 0 : ℤ))
      (fun _ j => (j 0 : ℤ) + 2 * (j 1 : ℤ)) true (fun _ => 1) (fun _ => 1) none
      (Or.inl rfl)⟩

lemma rint_intCast (n : ℤ) : rint ((n : ℤ) : ℚ) = n := by
  unfold rint
  rw [Int.floor_intCast]
  rw [if_neg]
  · exact round_intCast n
  · simp

lemma flipCoord_coe (N : ℕ) [NeZero N] (v : Fin N) :
    ((flipCoord N v : Fin N) : ℤ) = (N : ℤ) - 1 - ((v : ℕ) : ℤ) := by
  unfold flipCoord
  have h1 := v.isLt
  have h2 : 0 < N := Nat.pos_of_ne_zero (NeZero.ne N)
  push_cast
  omega

lemma flip_modIdx (N : ℕ) [NeZero N] (z : ℤ) :
    flipCoord N (modIdx N z) = modIdx N ((N : ℤ) - 1 - z) := by
  have hN : 0 < (N : ℤ) := by exact_mod_cast Nat.pos_of_ne_zero (NeZero.ne N)
  apply Fin.ext
  have h1 := modIdx_coe N z
  have h2 := modIdx_coe N ((N : ℤ) - 1 - z)
  have h3 := flipCoord_coe N (modIdx N z)
  have hz1 : 0 ≤ z % (N : ℤ) := Int.emod_nonneg z (by omega)
  have hz2 : z % (N : ℤ) < N := Int.emod_lt_of_pos z hN
  have key : ((N : ℤ) - 1 - z) % (N : ℤ) = (N : ℤ) - 1 - z % (N : ℤ) := by
    have e1 : ((N : ℤ) - 1 - z) % (N : ℤ) = ((N : ℤ) - 1 - z % (N : ℤ)) % (N : ℤ) := by
      rw [Int.sub_emod ((N : ℤ) - 1) z, Int.sub_emod ((N : ℤ) - 1) (z % (N : ℤ)),
        Int.emod_emod_of_dvd z (dvd_refl (N : ℤ))]
    rw [e1, Int.emod_eq_of_lt (by omega) (by omega)]
  omega

lemma rotGrid_modvec (D N : ℕ) [NeZero N] (f : Equiv.Perm (Fin D)) (ε : Fin D → ℤ)
    (y : Fin D → ℤ) :
    rotGrid D N f ε (fun a => modIdx N (y a)) =
      fun c => modIdx N (rotZ D N f ε y c) := by
  funext c
  unfold rotGrid rotZ
  by_cases h : ε c = 1
  · rw [if_pos h, if_pos h]
  · rw [if_neg h, if_neg h, flip_modIdx]

lemma rotZ_conv_key (D N M m : ℕ) [NeZero N] [NeZero M] (hM : M = 2 * m + 1)
    (f : Equiv.Perm (Fin D)) (ε : Fin D → ℤ)
    (p : Fin D → Fin N) (v : Fin D → Fin M) :
    rotZ D N f ε (fun a => ((p a : ℕ) : ℤ) + ((v a : ℕ) : ℤ) - (m : ℤ)) =
      fun c => ((rotGrid D N f ε p c : ℕ) : ℤ) +
        ((rotGrid D M f ε v c : ℕ) : ℤ) - (m : ℤ) := by
  funext c
  unfold rotZ rotGrid
  by_cases h : ε c = 1
  · rw [if_pos h, if_pos h, if_pos h]
  · rw [if_neg h, if_neg h, if_neg h, flipCoord_coe, flipCoord_coe]
    have hM1 : (M : ℤ) = 2 * m + 1 := by exact_mod_cast congrArg (Nat.cast : ℕ → ℤ) hM
    ring_nf
    omega

lemma inGrid_rotZ (D N : ℕ) (f : Equiv.Perm (Fin D)) (ε : Fin D → ℤ)
    (hε : ∀ j, ε j = 1 ∨ ε j = -1) (y : Fin D → ℤ) :
    inGrid N (rotZ D N f ε y) ↔ inGrid N y := by
  unfold inGrid rotZ
  constructor
  · intro h r
    have hc := h (f r)
    rw [Equiv.symm_apply_apply] at hc
    rcases hε (f r) with h1 | h1
    · rwa [if_pos h1] at hc
    · rw [h1, if_neg (by norm_num)] at hc
      omega
  · intro h c
    rcases hε c with h1 | h1
    · rw [if_pos h1]
      exact h (f.symm c)
    · rw [h1, if_neg (by norm_num)]
      have := h (f.symm c)
      omega

lemma flipCoord_injective (N : ℕ) [NeZero N] : Function.Injective (flipCoord N) := by
  intro a b hab
  have h1 := a.isLt
  have h2 := b.isLt
  have h3 : (flipCoord N a : ℕ) = (flipCoord N b : ℕ) := congrArg Fin.val hab
  unfold flipCoord at h3
  simp only at h3
  exact Fin.ext (by omega)

lemma rotGrid_bijective (D N : ℕ) [NeZero N] (f : Equiv.Perm (Fin D))
    (ε : Fin D → ℤ) : Function.Bijective (rotGrid D N f ε) := by
  rw [← Finite.injective_iff_bijective]
  intro p p2 hp
  funext r
  have hc : rotGrid D N f ε p (f r) = rotGrid D N f ε p2 (f r) := congrFun hp (f r)
  unfold rotGrid at hc
  rw [Equiv.symm_apply_apply] at hc
  by_cases h : ε (f r) = 1
  · rwa [if_pos h, if_pos h] at hc
  · rw [if_neg h, if_neg h] at hc
    exact flipCoord_injective N hc

lemma get_rotated_keys_signedPerm (D N : ℕ) [NeZero N]
    (f : Equiv.Perm (Fin D)) (ε : Fin D → ℤ) (hε : ∀ j, ε j = 1 ∨ ε j = -1)
    (p : Fin D → Fin N) (c : Fin D) :
    get_rotated_keys D N (signedPermMat D f ε) p c =
      if ε c = 1 then ((p (f.symm c) : ℕ) : ℤ)
      else (N : ℤ) - 1 - ((p (f.symm c) : ℕ) : ℤ) := by
  unfold get_rotated_keys
  have hsum : (∑ r, ((p r : ℚ) - ((N : ℚ) - 1) / 2) * ((signedPermMat D f ε r c : ℤ) : ℚ)) =
      ((p (f.symm c) : ℚ) - ((N : ℚ) - 1) / 2) * ((ε c : ℤ) : ℚ) := by
    rw [Finset.sum_eq_single (f.symm c)]
    · congr 2
      unfold signedPermMat
      rw [if_pos (f.apply_symm_apply c).symm]
    · intro b _ hb
      have h0 : signedPermMat D f ε b c = 0 := by
        unfold signedPermMat
        rw [if_neg (fun hc : c = f b => hb (by rw [hc, Equiv.symm_apply_apply]))]
      rw [h0]
      push_cast
      ring
    · intro hmem
      exact absurd (Finset.mem_univ _) hmem
  rw [hsum]
  rcases hε c with h | h
  · rw [if_pos h, h]
    have harg : ((p (f.symm c) : ℚ) - ((N : ℚ) - 1) / 2) * (((1 : ℤ) : ℤ) : ℚ) +
        ((N : ℚ) - 1) / 2 = (((p (f.symm c) : ℕ) : ℤ) : ℚ) := by
      push_cast
      ring
    rw [harg, rint_intCast]
  · rw [if_neg (by rw [h]; norm_num), h]
    have harg : ((p (f.symm c) : ℚ) - ((N : ℚ) - 1) / 2) * (((-1 : ℤ) : ℤ) : ℚ) +
        ((N : ℚ) - 1) / 2 = ((((N : ℤ) - 1 - ((p (f.symm c) : ℕ) : ℤ)) : ℤ) : ℚ) := by
      push_cast
      ring
    rw [harg, rint_intCast]

lemma hash_rotated_keys (D N : ℕ) [NeZero N]
    (f : Equiv.Perm (Fin D)) (ε : Fin D → ℤ) (hε : ∀ j, ε j = 1 ∨ ε j = -1)
    (p : Fin D → Fin N) :
    (fun c => modIdx N (get_rotated_keys D N (signedPermMat D f ε) p c)) =
      rotGrid D N f ε p := by
  funext c
  rw [get_rotated_keys_signedPerm D N f ε hε p c]
  unfold rotGrid
  by_cases h : ε c = 1
  · rw [if_pos h, if_pos h, modIdx_self]
  · rw [if_neg h, if_neg h]
    have h1 := (p (f.symm c)).isLt
    have hN : 0 < (N : ℤ) := by exact_mod_cast Nat.pos_of_ne_zero (NeZero.ne N)
    apply Fin.ext
    have hr : ((modIdx N ((N : ℤ) - 1 - ((p (f.symm c) : ℕ) : ℤ)) : Fin N) : ℤ) =
        (N : ℤ) - 1 - ((p (f.symm c) : ℕ) : ℤ) := by
      apply modIdx_coe_of_lt
      · omega
      · omega
    have hf := flipCoord_coe N (p (f.symm c))
    omega

lemma times_group_element_signedPerm (D N : ℕ) [NeZero N] {ι : Type}
    [Fintype ι] [DecidableEq ι] (parity : ℕ)
    (f : Equiv.Perm (Fin D)) (ε : Fin D → ℤ) (hε : ∀ j, ε j = 1 ∨ ε j = -1)
    (A : (Fin D → Fin N) → (ι → Fin D) → ℤ) (p : Fin D → Fin N) (i : ι → Fin D) :
    times_group_element D N parity (signedPermMat D f ε) A p i =
      detSign (signedPermMat D f ε) ^ parity *
        ∑ j : ι → Fin D, (∏ t, signedPermMat D f ε (i t) (j t)) *
          A (rotGrid D N f ε p) j := by
  unfold times_group_element hashRead
  rw [hash_rotated_keys D N f ε hε p]

lemma prod_pm {D : ℕ} (ε : Fin D → ℤ) (hε : ∀ j, ε j = 1 ∨ ε j = -1) :
    (∏ j, ε j) = 1 ∨ (∏ j, ε j) = -1 := by
  refine Finset.prod_induction ε (fun x => x = 1 ∨ x = -1) ?_ ?_ ?_
  · intro a b ha hb
    rcases ha with h | h <;> rcases hb with h2 | h2 <;> simp [h, h2]
  · left
    rfl
  · intro i _
    exact hε i

lemma det_signedPermMat {D : ℕ} (f : Equiv.Perm (Fin D)) (ε : Fin D → ℤ) :
    (Matrix.of (signedPermMat D f ε)).det =
      ((Equiv.Perm.sign f.symm : ℤ) : ℤ) * ∏ j, ε j := by
  rw [Matrix.det_apply]
  rw [Finset.sum_eq_single f.symm]
  · have hprod : (∏ i, Matrix.of (signedPermMat D f ε) (f.symm i) i) = ∏ j, ε j := by
      refine Finset.prod_congr rfl ?_
      intro i _
      show signedPermMat D f ε (f.symm i) i = ε i
      unfold signedPermMat
      rw [if_pos (f.apply_symm_apply i).symm]
    rw [hprod, Units.smul_def, smul_eq_mul]
  · intro σ _ hσ
    have hex : ∃ i, σ i ≠ f.symm i := by
      by_contra hc
      push_neg at hc
      exact hσ (Equiv.ext hc)
    obtain ⟨i, hi⟩ := hex
    have hz : Matrix.of (signedPermMat D f ε) (σ i) i = 0 := by
      show signedPermMat D f ε (σ i) i = 0
      unfold signedPermMat
      rw [if_neg]
      intro hc
      exact hi ((congrArg f.symm hc).trans (f.symm_apply_apply (σ i))).symm
    have hzero : (∏ x, Matrix.of (signedPermMat D f ε) (σ x) x) = 0 :=
      Finset.prod_eq_zero (Finset.mem_univ i) hz
    rw [hzero]
    simp
  · intro hmem
    exact absurd (Finset.mem_univ _) hmem

lemma detSign_pm {D : ℕ} (f : Equiv.Perm (Fin D)) (ε : Fin D → ℤ)
    (hε : ∀ j, ε j = 1 ∨ ε j = -1) :
    detSign (signedPermMat D f ε) = 1 ∨ detSign (signedPermMat D f ε) = -1 := by
  unfold detSign
  rw [det_signedPermMat]
  rcases Int.units_eq_one_or (Equiv.Perm.sign f.symm) with h | h <;>
    rcases prod_pm ε hε with h2 | h2 <;>
      rw [h, h2] <;> norm_num

lemma detSign_pow_mod {D : ℕ} {g : Mat D}
    (h : detSign g = 1 ∨ detSign g = -1) (n : ℕ) :
    detSign g ^ (n % 2) = detSign g ^ n := by
  rcases h with h | h <;> rw [h]
  · simp
  · rcases Nat.even_or_odd n with he | ho
    · rw [Nat.even_iff.mp he, pow_zero, he.neg_one_pow]
    · rw [Nat.odd_iff.mp ho, pow_one, ho.neg_one_pow]

lemma sum_tensor_split {D ki kf : ℕ} (g : Mat D) (t : (Fin ki ⊕ Fin kf) → Fin D)
    (W : (Fin ki → Fin D) → (Fin kf → Fin D) → ℤ) :
    (∑ j : (Fin ki ⊕ Fin kf) → Fin D,
      (∏ u, g (t u) (j u)) * W (fun u1 => j (Sum.inl u1)) (fun u2 => j (Sum.inr u2))) =
    ∑ j1 : Fin ki → Fin D, ∑ j2 : Fin kf → Fin D,
      ((∏ u1, g (t (Sum.inl u1)) (j1 u1)) * (∏ u2, g (t (Sum.inr u2)) (j2 u2))) *
        W j1 j2 := by
  have h1 : (∑ j : (Fin ki ⊕ Fin kf) → Fin D,
      (∏ u, g (t u) (j u)) * W (fun u1 => j (Sum.inl u1)) (fun u2 => j (Sum.inr u2))) =
      ∑ pr : (Fin ki → Fin D) × (Fin kf → Fin D),
        ((∏ u1, g (t (Sum.inl u1)) (pr.1 u1)) * (∏ u2, g (t (Sum.inr u2)) (pr.2 u2))) *
          W pr.1 pr.2 := by
    refine Fintype.sum_equiv (Equiv.sumArrowEquivProdArrow (Fin ki) (Fin kf) (Fin D))
      _ _ ?_
    intro j
    have hprod : (∏ u, g (t u) (j u)) =
        (∏ u1, g (t (Sum.inl u1)) (j (Sum.inl u1))) *
          (∏ u2, g (t (Sum.inr u2)) (j (Sum.inr u2))) :=
      Fintype.prod_sum_type _
    rw [hprod]
    rfl
  rw [h1, Fintype.sum_prod_type]

lemma paddedRead_resolved_same (D N M : ℕ) [NeZero N] {ι : Type}
    (A : (Fin D → Fin N) → (ι → Fin D) → ℤ) (isTorus : Bool)
    (pad : Option (Padding D))
    (hpad : resolvePadding isTorus pad = Padding.same) :
    paddedRead D N M A isTorus pad (fun _ => 1) =
      fun x => zeroExtend D N A (fun a => x a - ((M - 1) / 2 * 1 : ℕ)) := by
  unfold paddedRead
  rw [hpad]

lemma convolve_same_apply (D N M m : ℕ) [NeZero N] {ι₁ ι₂ : Type}
    (A : (Fin D → Fin N) → (ι₁ → Fin D) → ℤ)
    (F : (Fin D → Fin M) → (ι₂ → Fin D) → ℤ)
    (isTorus : Bool) (pad : Option (Padding D))
    (hpad : resolvePadding isTorus pad = Padding.same) (hM : M = 2 * m + 1)
    (p : Fin D → Fin N) (t : (ι₁ ⊕ ι₂) → Fin D) :
    convolve D N M A F isTorus (fun _ => 1) (fun _ => 1) pad
      (fun a => ((p a : ℕ) : ℤ)) t =
    ∑ q : Fin D → Fin M,
      zeroExtend D N A (fun a => ((p a : ℕ) : ℤ) + ((q a : ℕ) : ℤ) - (m : ℤ))
        (fun u => t (Sum.inl u)) * F q (fun u => t (Sum.inr u)) := by
  unfold convolve
  rw [paddedRead_resolved_same D N M A isTorus pad hpad]
  refine Finset.sum_congr rfl ?_
  intro q _
  unfold pre_tensor_product_expand_fst pre_tensor_product_expand_snd
  rw [mul_one, one_mul]
  congr 1
  refine congrFun (congrArg (zeroExtend D N A) ?_) _
  funext a
  show ((p a : ℕ) : ℤ) * ((1 : ℕ) : ℤ) + ((1 : ℕ) : ℤ) * ((q a : ℕ) : ℤ) -
      (((M - 1) / 2 * 1 : ℕ) : ℤ) = ((p a : ℕ) : ℤ) + ((q a : ℕ) : ℤ) - (m : ℤ)
  have hm : (M - 1) / 2 = m := by omega
  push_cast [hm]
  ring

lemma equivariance_core (D N M ki kf : ℕ) [NeZero N] [NeZero M] (pa pf : ℕ)
    (f : Equiv.Perm (Fin D)) (ε : Fin D → ℤ) (hε : ∀ j, ε j = 1 ∨ ε j = -1)
    (F : (Fin D → Fin M) → (Fin kf → Fin D) → ℤ)
    (read readTge : (Fin D → Fin N) → (Fin D → Fin M) → (Fin ki → Fin D) → ℤ)
    (hread : ∀ (p : Fin D → Fin N) (q : Fin D → Fin M) (i1 : Fin ki → Fin D),
      readTge p q i1 =
        detSign (signedPermMat D f ε) ^ pa *
          ∑ j1 : Fin ki → Fin D, (∏ u, signedPermMat D f ε (i1 u) (j1 u)) *
            read (rotGrid D N f ε p) (rotGrid D M f ε q) j1)
    (hFinv : times_group_element D M pf (signedPermMat D f ε) F = F)
    (p : Fin D → Fin N) (t : (Fin ki ⊕ Fin kf) → Fin D) :
    (∑ q : Fin D → Fin M,
      readTge p q (fun u => t (Sum.inl u)) * F q (fun u => t (Sum.inr u))) =
      detSign (signedPermMat D f ε) ^ ((pa + pf) % 2) *
        ∑ j : (Fin ki ⊕ Fin kf) → Fin D,
          (∏ u, signedPermMat D f ε (t u) (j u)) *
            (∑ q : Fin D → Fin M,
              read (rotGrid D N f ε p) q (fun u1 => j (Sum.inl u1)) *
                F q (fun u1 => j (Sum.inr u1))) := by
  have hspm := detSign_pm f ε hε
  set s := detSign (signedPermMat D f ε) with hsdef
  have hF : ∀ q : Fin D → Fin M,
      F q (fun u => t (Sum.inr u)) =
        s ^ pf * ∑ j2 : Fin kf → Fin D,
          (∏ u, signedPermMat D f ε (t (Sum.inr u)) (j2 u)) *
            F (rotGrid D M f ε q) j2 := by
    intro q
    conv_lhs => rw [← hFinv]
    rw [times_group_element_signedPerm D M pf f ε hε F q (fun u => t (Sum.inr u))]
  have hsplit := sum_tensor_split (signedPermMat D f ε) t
    (fun j1 j2 => ∑ q : Fin D → Fin M, read (rotGrid D N f ε p) q j1 * F q j2)
  rw [hsplit, detSign_pow_mod hspm (pa + pf), pow_add]
  calc
    (∑ q : Fin D → Fin M,
        readTge p q (fun u => t (Sum.inl u)) * F q (fun u => t (Sum.inr u))) =
      ∑ q : Fin D → Fin M,
        (s ^ pa * ∑ j1 : Fin ki → Fin D,
          (∏ u, signedPermMat D f ε (t (Sum.inl u)) (j1 u)) *
            read (rotGrid D N f ε p) (rotGrid D M f ε q) j1) *
        (s ^ pf * ∑ j2 : Fin kf → Fin D,
          (∏ u, signedPermMat D f ε (t (Sum.inr u)) (j2 u)) *
            F (rotGrid D M f ε q) j2) := by
        refine Finset.sum_congr rfl ?_
        intro q _
        rw [hread p q (fun u => t (Sum.inl u)), hF q]
    _ = s ^ pa * s ^ pf * ∑ q : Fin D → Fin M,
        (∑ j1 : Fin ki → Fin D,
          (∏ u, signedPermMat D f ε (t (Sum.inl u)) (j1 u)) *
            read (rotGrid D N f ε p) (rotGrid D M f ε q) j1) *
        (∑ j2 : Fin kf → Fin D,
          (∏ u, signedPermMat D f ε (t (Sum.inr u)) (j2 u)) *
            F (rotGrid D M f ε q) j2) := by
        rw [Finset.mul_sum]
        refine Finset.sum_congr rfl ?_
        intro q _
        ring
    _ = s ^ pa * s ^ pf * ∑ q : Fin D → Fin M,
        (∑ j1 : Fin ki → Fin D,
          (∏ u, signedPermMat D f ε (t (Sum.inl u)) (j1 u)) *
            read (rotGrid D N f ε p) q j1) *
        (∑ j2 : Fin kf → Fin D,
          (∏ u, signedPermMat D f ε (t (Sum.inr u)) (j2 u)) * F q j2) := by
        congr 1
        refine Fintype.sum_bijective (rotGrid D M f ε)
          (rotGrid_bijective D M f ε) _ _ ?_
        intro q
        rfl
    _ = s ^ pa * s ^ pf * ∑ q : Fin D → Fin M,
        ∑ j1 : Fin ki → Fin D, ∑ j2 : Fin kf → Fin D,
          ((∏ u, signedPermMat D f ε (t (Sum.inl u)) (j1 u)) *
              read (rotGrid D N f ε p) q j1) *
            ((∏ u, signedPermMat D f ε (t (Sum.inr u)) (j2 u)) * F q j2) := by
        congr 1
        refine Finset.sum_congr rfl ?_
        intro q _
        exact Finset.sum_mul_sum _ _ _ _
    _ = s ^ pa * s ^ pf *
        ∑ j1 : Fin ki → Fin D, ∑ j2 : Fin kf → Fin D,
          ((∏ u1, signedPermMat D f ε (t (Sum.inl u1)) (j1 u1)) *
              (∏ u2, signedPermMat D f ε (t (Sum.inr u2)) (j2 u2))) *
            (∑ q : Fin D → Fin M, read (rotGrid D N f ε p) q j1 * F q j2) := by
        congr 1
        rw [Finset.sum_comm]
        refine Finset.sum_congr rfl ?_
        intro j1 _
        rw [Finset.sum_comm]
        refine Finset.sum_congr rfl ?_
        intro j2 _
        rw [Finset.mul_sum]
        refine Finset.sum_congr rfl ?_
        intro q _
        ring

/-- Claim C2 (amended): for `D ∈ {2,3}`, any image, any group element `g` of
`make_all_operators(D)` and any filter invariant under every group element,
with the tensor orders in the collision-free regime `D + ki + kf ≤ 13` of the
group action's einsum strings (every rotation the claim performs has order at
most `ki + kf`), convolving the rotated image with the filter (default
stride/dilation/padding) equals rotating the convolved image: the data agree
at every pixel and tensor index, and the stored parities agree.  Without that
bound the claim fails: see `claim_C2_convolution_equivariance_cex`. -/
theorem claim_C2_convolution_equivariance
    (D N M m ki kf pa pf : ℕ) [NeZero N] [NeZero M] (isTorus : Bool)
    (A : (Fin D → Fin N) → (Fin ki → Fin D) → ℤ)
    (F : (Fin D → Fin M) → (Fin kf → Fin D) → ℤ)
    (g : Mat D) (hg : g ∈ make_all_operators D)
    (hD : D = 2 ∨ D = 3) (hM : M = 2 * m + 1) (_hpa : pa ≤ 1) (_hpf : pf ≤ 1)
    (_hk : D + ki + kf ≤ 13)
    (hFinv : ∀ g2 ∈ make_all_operators D, times_group_element D M pf g2 F = F) :
    (∀ (p : Fin D → Fin N) (t : (Fin ki ⊕ Fin kf) → Fin D),
      convolve D N M (times_group_element D N pa g A) F isTorus
          (fun _ => 1) (fun _ => 1) none (fun a => ((p a : ℕ) : ℤ)) t =
        times_group_element D N ((pa + pf) % 2) g
          (fun p2 t2 => convolve D N M A F isTorus (fun _ => 1) (fun _ => 1) none
            (fun a => ((p2 a : ℕ) : ℤ)) t2) p t) ∧
    (pa % 2 + pf) % 2 = (pa + pf) % 2 := by
  have hD0 : 0 < D := by omega
  obtain ⟨f, ε, hε, hgE⟩ := mem_make_all_operators.mp hg
  subst hgE
  refine ⟨?_, by omega⟩
  intro p t
  have hFg := hFinv _ hg
  cases isTorus with
  | true =>
    have hconv : ∀ (B : (Fin D → Fin N) → (Fin ki → Fin D) → ℤ)
        (p2 : Fin D → Fin N) (t2 : (Fin ki ⊕ Fin kf) → Fin D),
        convolve D N M B F true (fun _ => 1) (fun _ => 1) none
            (fun a => ((p2 a : ℕ) : ℤ)) t2 =
          ∑ q : Fin D → Fin M,
            B (fun a => modIdx N (((p2 a : ℕ) : ℤ) + ((q a : ℕ) : ℤ) - (m : ℤ)))
              (fun u => t2 (Sum.inl u)) * F q (fun u => t2 (Sum.inr u)) := by
      intro B p2 t2
      rw [convolve_torus_apply D N M 1 m B F true none hD0 rfl hM p2 t2]
      refine Finset.sum_congr rfl ?_
      intro q _
      congr 1
      refine congrFun (congrArg B ?_) _
      funext a
      congr 1
      push_cast
      ring
    rw [hconv (times_group_element D N pa (signedPermMat D f ε) A) p t]
    have hR : times_group_element D N ((pa + pf) % 2) (signedPermMat D f ε)
        (fun p2 t2 => convolve D N M A F true (fun _ => 1) (fun _ => 1) none
          (fun a => ((p2 a : ℕ) : ℤ)) t2) p t =
        detSign (signedPermMat D f ε) ^ ((pa + pf) % 2) *
          ∑ j : (Fin ki ⊕ Fin kf) → Fin D,
            (∏ u, signedPermMat D f ε (t u) (j u)) *
              (∑ q : Fin D → Fin M,
                A (fun a => modIdx N
                    (((rotGrid D N f ε p a : ℕ) : ℤ) + ((q a : ℕ) : ℤ) - (m : ℤ)))
                  (fun u1 => j (Sum.inl u1)) * F q (fun u1 => j (Sum.inr u1))) := by
      rw [times_group_element_signedPerm D N ((pa + pf) % 2) f ε hε _ p t]
      congr 1
      refine Finset.sum_congr rfl ?_
      intro j _
      congr 1
      exact hconv A (rotGrid D N f ε p) j
    rw [hR]
    refine equivariance_core D N M ki kf pa pf f ε hε F
      (fun p2 q j1 =>
        A (fun a => modIdx N (((p2 a : ℕ) : ℤ) + ((q a : ℕ) : ℤ) - (m : ℤ))) j1)
      (fun p2 q i1 =>
        times_group_element D N pa (signedPermMat D f ε) A
          (fun a => modIdx N (((p2 a : ℕ) : ℤ) + ((q a : ℕ) : ℤ) - (m : ℤ))) i1)
      ?_ hFg p t
    intro p2 q i1
    show times_group_element D N pa (signedPermMat D f ε) A
        (fun a => modIdx N (((p2 a : ℕ) : ℤ) + ((q a : ℕ) : ℤ) - (m : ℤ))) i1 =
      detSign (signedPermMat D f ε) ^ pa *
        ∑ j1 : Fin ki → Fin D, (∏ u, signedPermMat D f ε (i1 u) (j1 u)) *
          A (fun a => modIdx N (((rotGrid D N f ε p2 a : ℕ) : ℤ) +
            ((rotGrid D M f ε q a : ℕ) : ℤ) - (m : ℤ))) j1
    rw [times_group_element_signedPerm D N pa f ε hε A _ i1]
    congr 1
    refine Finset.sum_congr rfl ?_
    intro j1 _
    congr 1
    refine congrFun (congrArg A ?_) _
    rw [rotGrid_modvec D N f ε
      (fun a => ((p2 a : ℕ) : ℤ) + ((q a : ℕ) : ℤ) - (m : ℤ))]
    rw [rotZ_conv_key D N M m hM f ε p2 q]
  | false =>
    have hconv : ∀ (B : (Fin D → Fin N) → (Fin ki → Fin D) → ℤ)
        (p2 : Fin D → Fin N) (t2 : (Fin ki ⊕ Fin kf) → Fin D),
        convolve D N M B F false (fun _ => 1) (fun _ => 1) none
            (fun a => ((p2 a : ℕ) : ℤ)) t2 =
          ∑ q : Fin D → Fin M,
            zeroExtend D N B
              (fun a => ((p2 a : ℕ) : ℤ) + ((q a : ℕ) : ℤ) - (m : ℤ))
              (fun u => t2 (Sum.inl u)) * F q (fun u => t2 (Sum.inr u)) := by
      intro B p2 t2
      exact convolve_same_apply D N M m B F false none rfl hM p2 t2
    rw [hconv (times_group_element D N pa (signedPermMat D f ε) A) p t]
    have hR : times_group_element D N ((pa + pf) % 2) (signedPermMat D f ε)
        (fun p2 t2 => convolve D N M A F false (fun _ => 1) (fun _ => 1) none
          (fun a => ((p2 a : ℕ) : ℤ)) t2) p t =
        detSign (signedPermMat D f ε) ^ ((pa + pf) % 2) *
          ∑ j : (Fin ki ⊕ Fin kf) → Fin D,
            (∏ u, signedPermMat D f ε (t u) (j u)) *
              (∑ q : Fin D → Fin M,
                zeroExtend D N A
                  (fun a => ((rotGrid D N f ε p a : ℕ) : ℤ) +
                    ((q a : ℕ) : ℤ) - (m : ℤ))
                  (fun u1 => j (Sum.inl u1)) * F q (fun u1 => j (Sum.inr u1))) := by
      rw [times_group_element_signedPerm D N ((pa + pf) % 2) f ε hε _ p t]
      congr 1
      refine Finset.sum_congr rfl ?_
      intro j _
      congr 1
      exact hconv A (rotGrid D N f ε p) j
    rw [hR]
    refine equivariance_core D N M ki kf pa pf f ε hε F
      (fun p2 q j1 =>
        zeroExtend D N A
          (fun a => ((p2 a : ℕ) : ℤ) + ((q a : ℕ) : ℤ) - (m : ℤ)) j1)
      (fun p2 q i1 =>
        zeroExtend D N (times_group_element D N pa (signedPermMat D f ε) A)
          (fun a => ((p2 a : ℕ) : ℤ) + ((q a : ℕ) : ℤ) - (m : ℤ)) i1)
      ?_ hFg p t
    intro p2 q i1
    show zeroExtend D N (times_group_element D N pa (signedPermMat D f ε) A)
        (fun a => ((p2 a : ℕ) : ℤ) + ((q a : ℕ) : ℤ) - (m : ℤ)) i1 =
      detSign (signedPermMat D f ε) ^ pa *
        ∑ j1 : Fin ki → Fin D, (∏ u, signedPermMat D f ε (i1 u) (j1 u)) *
          zeroExtend D N A
            (fun a => ((rotGrid D N f ε p2 a : ℕ) : ℤ) +
              ((rotGrid D M f ε q a : ℕ) : ℤ) - (m : ℤ)) j1
    have hrotZ := rotZ_conv_key D N M m hM f ε p2 q
    by_cases hin : inGrid N
        (fun a => ((p2 a : ℕ) : ℤ) + ((q a : ℕ) : ℤ) - (m : ℤ))
    · rw [zeroExtend_of_inGrid D N _ _ hin]
      rw [times_group_element_signedPerm D N pa f ε hε A _ i1]
      congr 1
      refine Finset.sum_congr rfl ?_
      intro j1 _
      congr 1
      have hin2 : inGrid N
          (fun a => ((rotGrid D N f ε p2 a : ℕ) : ℤ) +
            ((rotGrid D M f ε q a : ℕ) : ℤ) - (m : ℤ)) := by
        rw [← hrotZ]
        exact (inGrid_rotZ D N f ε hε _).mpr hin
      rw [zeroExtend_of_inGrid D N _ _ hin2]
      refine congrFun (congrArg A ?_) _
      rw [rotGrid_modvec D N f ε
        (fun a => ((p2 a : ℕ) : ℤ) + ((q a : ℕ) : ℤ) - (m : ℤ))]
      funext c
      congr 1
      exact congrFun hrotZ c
    · have hz1 : zeroExtend D N (times_group_element D N pa (signedPermMat D f ε) A)
          (fun a => ((p2 a : ℕ) : ℤ) + ((q a : ℕ) : ℤ) - (m : ℤ)) i1 = 0 := by
        unfold zeroExtend
        rw [if_neg hin]
      have hin2 : ¬ inGrid N
          (fun a => ((rotGrid D N f ε p2 a : ℕ) : ℤ) +
            ((rotGrid D M f ε q a : ℕ) : ℤ) - (m : ℤ)) := by
        rw [← hrotZ]
        intro hc
        exact hin ((inGrid_rotZ D N f ε hε _).mp hc)
      have hz2 : ∀ j1 : Fin ki → Fin D,
          zeroExtend D N A
            (fun a => ((rotGrid D N f ε p2 a : ℕ) : ℤ) +
              ((rotGrid D M f ε q a : ℕ) : ℤ) - (m : ℤ)) j1 = 0 := by
        intro j1
        unfold zeroExtend
        rw [if_neg hin2]
      rw [hz1]
      have hsum : (∑ j1 : Fin ki → Fin D,
          (∏ u, signedPermMat D f ε (i1 u) (j1 u)) *
            zeroExtend D N A
              (fun a => ((rotGrid D N f ε p2 a : ℕ) : ℤ) +
                ((rotGrid D M f ε q a : ℕ) : ℤ) - (m : ℤ)) j1) = 0 := by
        refine Finset.sum_eq_zero ?_
        intro j1 _
        rw [hz2 j1, mul_zero]
      rw [hsum, mul_zero]

/-- Witness for claim C2: `D = 2`, `N = 1`, `M = 1`, scalar image and filter,
parities 0, the reflection `diag(1,-1)` as group element. -/
theorem claim_C2_convolution_equivariance_witness :
    (matMul (permutation_matrix_from_sequence 2 [0, 1]) (diagMat 2 [1, -1]) ∈
        make_all_operators 2) ∧
    ((2 : ℕ) = 2 ∨ (2 : ℕ) = 3) ∧ (1 : ℕ) = 2 * 0 + 1 ∧ (0 : ℕ) ≤ 1 ∧
    (2 : ℕ) + 0 + 0 ≤ 13 ∧
    (∀ g2 ∈ make_all_operators 2,
      times_group_element 2 1 0 g2
        (fun (_ : Fin 2 → Fin 1) (_ : Fin 0 → Fin 2) => (3 : ℤ)) =
        (fun _ _ => (3 : ℤ))) ∧
    ((∀ (p : Fin 2 → Fin 1) (t : (Fin 0 ⊕ Fin 0) → Fin 2),
      convolve 2 1 1 (times_group_element 2 1 0
          (matMul (permutation_matrix_from_sequence 2 [0, 1]) (diagMat 2 [1, -1]))
          (fun _ _ => (5 : ℤ))) (fun _ _ => (3 : ℤ)) true
          (fun _ => 1) (fun _ => 1) none (fun a => ((p a : ℕ) : ℤ)) t =
        times_group_element 2 1 ((0 + 0) % 2)
          (matMul (permutation_matrix_from_sequence 2 [0, 1]) (diagMat 2 [1, -1]))
          (fun p2 t2 => convolve 2 1 1 (fun _ _ => (5 : ℤ)) (fun _ _ => (3 : ℤ)) true
            (fun _ => 1) (fun _ => 1) none (fun a => ((p2 a : ℕ) : ℤ)) t2) p t) ∧
    ((0 : ℕ) % 2 + 0) % 2 = (0 + 0) % 2) := by
  have hF : ∀ g2 ∈ make_all_operators 2,
      times_group_element 2 1 0 g2
        (fun (_ : Fin 2 → Fin 1) (_ : Fin 0 → Fin 2) => (3 : ℤ)) =
        (fun _ _ => (3 : ℤ)) := by
    intro g2 _
    funext p i
    simp [times_group_element, hashRead]
  exact ⟨by decide, Or.inl rfl, rfl, by decide, by decide, hF,
    claim_C2_convolution_equivariance 2 1 1 0 0 0 0 0 true
      (fun _ _ => (5 : ℤ)) (fun _ _ => (3 : ℤ))
      (matMul (permutation_matrix_from_sequence 2 [0, 1]) (diagMat 2 [1, -1]))
      (by decide) (Or.inl rfl) rfl (by decide) (by decide) (by decide) hF⟩
/-- An element of `range(k)[i+1:]` lies strictly between `i` and `k`. -/
theorem mem_drop_range {k i j : ℕ} (h : j ∈ (List.range k).drop (i + 1)) :
    i < j ∧ j < k := by
  obtain ⟨n, hn, hj⟩ := List.mem_iff_getElem.mp h
  rw [List.getElem_drop, List.getElem_range] at hj
  have hlen : n < k - (i + 1) := by
    have := hn
    rwa [List.length_drop, List.length_range] at this
  omega

/-- Every candidate pair produced by the pair enumeration is increasing and
in range. -/
theorem mem_pairs_bounds {k : ℕ} {pr : ℕ × ℕ}
    (h : pr ∈ (List.range k).flatMap
      (fun i => ((List.range k).drop (i + 1)).map (fun j => (i, j)))) :
    pr.1 < pr.2 ∧ pr.2 < k := by
  obtain ⟨i, _hi, hpr⟩ := List.mem_flatMap.mp h
  obtain ⟨j, hj, hje⟩ := List.mem_map.mp hpr
  obtain ⟨h1, h2⟩ := mem_drop_range hj
  rw [← hje]
  exact ⟨h1, h2⟩

/-- If the flattened index list of a pair list has no duplicates, the pair
list itself has none. -/
theorem nodup_of_flatMap_pairs {r : List (ℕ × ℕ)}
    (h : (r.flatMap (fun pr => [pr.1, pr.2])).Nodup) : r.Nodup := by
  induction r with
  | nil => exact List.nodup_nil
  | cons pr rest ih =>
    rw [List.flatMap_cons] at h
    simp only [List.cons_append, List.nil_append, List.nodup_cons, List.mem_cons] at h
    rw [List.nodup_cons]
    refine ⟨fun hm => ?_, ih h.2.2⟩
    exact h.1 (Or.inr (List.mem_flatMap.mpr ⟨pr, hm, by simp⟩))

/-- Every entry of `get_contraction_indices` is sorted, duplicate-free, of
length `(initial_k - final_k) / 2`, uses each index at most once, and its
pairs are increasing and drawn from `range initial_k`. -/
theorem mem_gci {k0 kf : ℕ} {r : List (ℕ × ℕ)}
    (h : r ∈ get_contraction_indices k0 kf) :
    List.Sorted pairLE r ∧ r.Nodup ∧ r.length = (k0 - kf) / 2 ∧
    (r.flatMap (fun pr => [pr.1, pr.2])).Nodup ∧
    ∀ pr ∈ r, pr.1 < pr.2 ∧ pr.2 < k0 := by
  unfold get_contraction_indices at h
  simp only [List.mem_dedup, (List.perm_insertionSort rowLE _).mem_iff,
    List.mem_map, List.mem_filter, List.mem_sublistsLen] at h
  obtain ⟨c, ⟨⟨hsub, hlen⟩, hdec⟩, hr⟩ := h
  have hnod : (c.flatMap (fun p => [p.1, p.2])).Nodup := of_decide_eq_true hdec
  have bounds : ∀ pr ∈ c, pr.1 < pr.2 ∧ pr.2 < k0 :=
    fun pr hpr => mem_pairs_bounds (hsub.subset hpr)
  have hmap : c.map sortPair = c := by
    have h1 : ∀ pr ∈ c, sortPair pr = id pr := by
      intro pr hpr
      unfold sortPair
      rw [if_pos (le_of_lt (bounds pr hpr).1)]
      rfl
    rw [List.map_congr_left h1, List.map_id]
  rw [hmap] at hr
  have hperm : r.Perm c := hr ▸ List.perm_insertionSort pairLE c
  refine ⟨?_, ?_, ?_, ?_, ?_⟩
  · exact hr ▸ List.sorted_insertionSort pairLE c
  · exact hperm.nodup_iff.mpr (nodup_of_flatMap_pairs hnod)
  · rw [hperm.length_eq, hlen]
  · exact (hperm.flatMap_right (fun pr => [pr.1, pr.2])).nodup_iff.mpr hnod
  · exact fun pr hpr => bounds pr (hperm.mem_iff.mp hpr)

/-- Two entries of `get_contraction_indices` with the same set of unordered
pairs are equal. -/
theorem gci_inj {k0 kf : ℕ} {r1 r2 : List (ℕ × ℕ)}
    (h1 : r1 ∈ get_contraction_indices k0 kf)
    (h2 : r2 ∈ get_contraction_indices k0 kf)
    (hs : pairSymSet r1 = pairSymSet r2) : r1 = r2 := by
  obtain ⟨hs1, hn1, _, _, hb1⟩ := mem_gci h1
  obtain ⟨hs2, hn2, _, _, hb2⟩ := mem_gci h2
  have key : ∀ (ra rb : List (ℕ × ℕ)), pairSymSet ra = pairSymSet rb →
      (∀ pr ∈ ra, pr.1 < pr.2) → (∀ pr ∈ rb, pr.1 < pr.2) → ra ⊆ rb := by
    intro ra rb hab hia hib pr hpr
    have hm : Sym2.mk pr ∈ pairSymSet ra := by
      unfold pairSymSet
      rw [List.mem_toFinset]
      exact List.mem_map_of_mem _ hpr
    rw [hab] at hm
    unfold pairSymSet at hm
    rw [List.mem_toFinset] at hm
    obtain ⟨pr2, hpr2, heq⟩ := List.mem_map.mp hm
    have hincr2 : pr2.1 < pr2.2 := hib pr2 hpr2
    have hincr : pr.1 < pr.2 := hia pr hpr
    have heq2 : (pr2.1 = pr.1 ∧ pr2.2 = pr.2) ∨ (pr2.1 = pr.2 ∧ pr2.2 = pr.1) := by
      rw [show Sym2.mk pr2 = s(pr2.1, pr2.2) from rfl,
        show Sym2.mk pr = s(pr.1, pr.2) from rfl, Sym2.eq_iff] at heq
      exact heq
    have : pr2 = pr := by
      rcases heq2 with ⟨ha, hb⟩ | ⟨ha, hb⟩
      · exact Prod.ext ha hb
      · omega
    exact this ▸ hpr2
  have hsub1 : r1 ⊆ r2 := key r1 r2 hs (fun pr hpr => (hb1 pr hpr).1)
    (fun pr hpr => (hb2 pr hpr).1)
  have hsub2 : r2 ⊆ r1 := key r2 r1 hs.symm (fun pr hpr => (hb2 pr hpr).1)
    (fun pr hpr => (hb1 pr hpr).1)
  exact List.eq_of_perm_of_sorted
    ((List.subperm_of_subset hn1 hsub1).antisymm (List.subperm_of_subset hn2 hsub2))
    hs1 hs2

/-- C6: with `(initial_k + final_k)` even and `initial_k ≥ final_k`,
`get_contraction_indices(initial_k, final_k)` has no two entries equal as
sets of unordered pairs, and every entry is a list of exactly
`(initial_k - final_k)/2` pairwise-disjoint pairs of distinct indices from
`{0, …, initial_k - 1}`. -/
theorem claim_C6_contraction_indices (initial_k final_k : ℕ)
    (_hpar : (initial_k + final_k) % 2 = 0) (_hge : final_k ≤ initial_k) :
    List.Pairwise (fun r1 r2 => pairSymSet r1 ≠ pairSymSet r2)
      (get_contraction_indices initial_k final_k) ∧
    ∀ r ∈ get_contraction_indices initial_k final_k,
      r.length = (initial_k - final_k) / 2 ∧
      (r.flatMap (fun pr => [pr.1, pr.2])).Nodup ∧
      ∀ pr ∈ r, pr.1 < pr.2 ∧ pr.2 < initial_k := by
  constructor
  · have hnd : (get_contraction_indices initial_k final_k).Nodup := by
      unfold get_contraction_indices
      exact List.nodup_dedup _
    exact hnd.imp_of_mem (fun {a b} ha hb hne hset => hne (gci_inj ha hb hset))
  · intro r hr
    obtain ⟨_, _, hlen, hflat, hb⟩ := mem_gci hr
    exact ⟨hlen, hflat, hb⟩

/-- C6 at `initial_k = 2`, `final_k = 0`. -/
theorem claim_C6_contraction_indices_witness :
    ((2 + 0) % 2 = 0 ∧ 0 ≤ 2) ∧
    (List.Pairwise (fun r1 r2 => pairSymSet r1 ≠ pairSymSet r2)
      (get_contraction_indices 2 0) ∧
    ∀ r ∈ get_contraction_indices 2 0,
      r.length = (2 - 0) / 2 ∧
      (r.flatMap (fun pr => [pr.1, pr.2])).Nodup ∧
      ∀ pr ∈ r, pr.1 < pr.2 ∧ pr.2 < 2) :=
  ⟨by decide, claim_C6_contraction_indices 2 0 (by decide) (by decide)⟩
/-- Concatenation along axis 0 preserves the block shape invariant. -/
theorem concatBlocks_good {D N k : ℕ} {b0 b b1 : Block}
    (h0 : GoodBlock D N k b0) (h : concatBlocks b0 b = Except.ok b1) :
    GoodBlock D N k b1 := by
  unfold concatBlocks at h
  by_cases heq : b0.shape.tail = b.shape.tail
  · rw [if_pos heq] at h
    obtain ⟨c0, hc0⟩ := h0
    have hb1 := (Except.ok.inj h).symm
    refine ⟨b0.shape.headI + b.shape.headI, ?_⟩
    rw [hb1]
    show (b0.shape.headI + b.shape.headI) :: b0.shape.tail = _
    rw [hc0]
    rfl
  · rw [if_neg heq] at h
    exact Except.noConfusion h

/-- `updateBlocks` preserves the shape invariant of every entry. -/
theorem updateBlocks_good {D N : ℕ} {key : ℕ × ℕ} {b : Block}
    (hb : GoodBlock D N key.1 b) :
    ∀ {bs bs1 : List ((ℕ × ℕ) × Block)},
      (∀ kb ∈ bs, GoodBlock D N kb.1.1 kb.2) →
      updateBlocks bs key b = Except.ok bs1 →
      ∀ kb ∈ bs1, GoodBlock D N kb.1.1 kb.2 := by
  intro bs
  induction bs with
  | nil =>
    intro bs1 _ h kb hkb
    have hb1 : bs1 = [] := (Except.ok.inj h).symm
    rw [hb1] at hkb
    exact absurd hkb (List.not_mem_nil kb)
  | cons hd rest ih =>
    obtain ⟨key0, b0⟩ := hd
    intro bs1 hbs h kb hkb
    unfold updateBlocks at h
    by_cases hk : key0 = key
    · rw [if_pos hk] at h
      cases hc : concatBlocks b0 b with
      | error e => rw [hc] at h; simp [Except.map] at h
      | ok bc =>
        rw [hc] at h
        simp only [Except.map] at h
        have hb1 : bs1 = (key0, bc) :: rest := (Except.ok.inj h).symm
        rw [hb1] at hkb
        rcases List.mem_cons.mp hkb with heq | hmem
        · rw [heq]
          have h0 : GoodBlock D N key0.1 b0 := hbs (key0, b0) (List.mem_cons_self _ _)
          have hbk : GoodBlock D N key0.1 b := hk ▸ hb
          exact concatBlocks_good h0 hc
        · exact hbs kb (List.mem_cons_of_mem _ hmem)
    · rw [if_neg hk] at h
      cases hu : updateBlocks rest key b with
      | error e => rw [hu] at h; simp [Except.map] at h
      | ok bs' =>
        rw [hu] at h
        simp only [Except.map] at h
        have hb1 : bs1 = (key0, b0) :: bs' := (Except.ok.inj h).symm
        rw [hb1] at hkb
        rcases List.mem_cons.mp hkb with heq | hmem
        · rw [heq]
          exact hbs (key0, b0) (List.mem_cons_self _ _)
        · exact ih (fun kb2 hkb2 => hbs kb2 (List.mem_cons_of_mem _ hkb2)) hu kb hmem

/-- `Layer.appendBlock` preserves dimension, torus flag and the common side
length, provided the appended block itself has the right full shape. -/
theorem appendBlock_good {L : Layer} {N k parity : ℕ} {b : Block} {L1 : Layer}
    (hL : LayerSharesN L N) (hb : GoodBlock L.D N k b)
    (h : L.appendBlock k parity b = Except.ok L1) :
    L1.D = L.D ∧ L1.is_torus = L.is_torus ∧ LayerSharesN L1 N := by
  unfold Layer.appendBlock at h
  by_cases h1 : k > 0 ∧ ¬ b.shape.drop (b.shape.length - k) = List.replicate k L.D
  · rw [if_pos h1] at h
    exact Except.noConfusion h
  · rw [if_neg h1] at h
    by_cases h2 : (k, parity) ∈ L.layerKeys
    · rw [if_pos h2] at h
      cases hu : updateBlocks L.blocks (k, parity) b with
      | error e => rw [hu] at h; simp [Except.map] at h
      | ok bs1 =>
        rw [hu] at h
        simp only [Except.map] at h
        have hL1 : L1 = ⟨L.D, L.is_torus, bs1⟩ := (Except.ok.inj h).symm
        rw [hL1]
        exact ⟨rfl, rfl, fun kb hkb => updateBlocks_good hb hL hu kb hkb⟩
    · rw [if_neg h2] at h
      have hL1 : L1 = ⟨L.D, L.is_torus, L.blocks ++ [((k, parity), b)]⟩ :=
        (Except.ok.inj h).symm
      rw [hL1]
      refine ⟨rfl, rfl, fun kb hkb => ?_⟩
      rcases List.mem_append.mp hkb with hmem | hmem
      · exact hL kb hmem
      · rw [List.mem_singleton.mp hmem]
        exact hb

/-- Folding `appendBlock` over a list of well-shaped blocks preserves the
invariant. -/
theorem foldlM_append_good {N : ℕ} :
    ∀ (bs : List ((ℕ × ℕ) × Block)) (L L3 : Layer),
      LayerSharesN L N → (∀ kb ∈ bs, GoodBlock L.D N kb.1.1 kb.2) →
      bs.foldlM (fun acc kb => acc.appendBlock kb.1.1 kb.1.2 kb.2) L =
        Except.ok L3 →
      L3.D = L.D ∧ L3.is_torus = L.is_torus ∧ LayerSharesN L3 N := by
  intro bs
  induction bs with
  | nil =>
    intro L L3 hL _ h
    have : L3 = L := (Except.ok.inj h).symm
    rw [this]
    exact ⟨rfl, rfl, hL⟩
  | cons kb rest ih =>
    intro L L3 hL hbs h
    rw [List.foldlM_cons] at h
    cases happ : L.appendBlock kb.1.1 kb.1.2 kb.2 with
    | error e => rw [happ] at h; exact Except.noConfusion h
    | ok L' =>
      rw [happ] at h
      have hstep := appendBlock_good hL (hbs kb (List.mem_cons_self _ _)) happ
      have hrest : ∀ kb2 ∈ rest, GoodBlock L'.D N kb2.1.1 kb2.2 := by
        intro kb2 hkb2
        rw [hstep.1]
        exact hbs kb2 (List.mem_cons_of_mem _ hkb2)
      have htail := ih L' L3 hstep.2.2 hrest h
      exact ⟨htail.1.trans hstep.1, htail.2.1.trans hstep.2.1, htail.2.2⟩

/-- C8 (amended): `Layer.append` preserves D, the torus flag and the common
spatial side length `N` only when the appended block itself has the full
well-formed shape `(channels,) + (N,)*D + (D,)*k`; under that extra
hypothesis the invariant also survives `Layer.__add__`.  (The unconditional
claim is refuted by `claim_C8_layer_append_cex`: `append` never checks the
spatial axes, so a new-key append can mix side lengths.) -/
theorem claim_C8_layer_append_invariant
    (L : Layer) (N k parity : ℕ) (b : Block) (L1 : Layer)
    (hL : LayerSharesN L N) (hb : GoodBlock L.D N k b)
    (h : L.appendBlock k parity b = Except.ok L1) :
    (L1.D = L.D ∧ L1.is_torus = L.is_torus ∧ LayerSharesN L1 N) ∧
    (∀ L2 L3 : Layer, LayerSharesN L2 N → L1.D = L2.D →
      L1.addLayer L2 = Except.ok L3 →
      L3.D = L1.D ∧ L3.is_torus = L1.is_torus ∧ LayerSharesN L3 N) := by
  have hA := appendBlock_good hL hb h
  refine ⟨hA, fun L2 L3 hL2 hD12 hadd => ?_⟩
  unfold Layer.addLayer at hadd
  by_cases hc : L1.D = L2.D ∧ L1.is_torus = L2.is_torus
  · rw [if_pos hc] at hadd
    refine foldlM_append_good L2.blocks L1 L3 hA.2.2 ?_ hadd
    intro kb hkb
    rw [hD12]
    exact hL2 kb hkb
  · rw [if_neg hc] at hadd
    exact Except.noConfusion hadd

/-- C8 (counterexample): a layer whose single block has side length 2 accepts
an append of a new-key block of side length 3, after which no common side
length exists — the unconditional invariant of the claim fails. -/
theorem claim_C8_layer_append_cex :
    ∃ (L : Layer) (N k parity : ℕ) (b : Block) (L1 : Layer),
      LayerSharesN L N ∧
      L.appendBlock k parity b = Except.ok L1 ∧
      ∀ N1 : ℕ, ¬ LayerSharesN L1 N1 := by
  refine ⟨⟨2, true, [((0, 0), ⟨[1, 2, 2], List.replicate 4 0⟩)]⟩, 2, 0, 1,
    ⟨[1, 3, 3], List.replicate 9 0⟩,
    ⟨2, true, [((0, 0), ⟨[1, 2, 2], List.replicate 4 0⟩),
      ((0, 1), ⟨[1, 3, 3], List.replicate 9 0⟩)]⟩, ?_, rfl, ?_⟩
  · intro kb hkb
    rw [List.mem_singleton.mp hkb]
    exact ⟨1, rfl⟩
  · intro N1 hsh
    obtain ⟨c2, hc2⟩ := hsh ((0, 0), ⟨[1, 2, 2], List.replicate 4 0⟩) (by simp)
    obtain ⟨c3, hc3⟩ := hsh ((0, 1), ⟨[1, 3, 3], List.replicate 9 0⟩) (by simp)
    simp only [List.replicate, List.append_nil] at hc2 hc3
    have h2 : ([1, 2, 2] : List ℕ) = [c2, N1, N1] := hc2
    have h3 : ([1, 3, 3] : List ℕ) = [c3, N1, N1] := hc3
    simp only [List.cons.injEq] at h2 h3
    omega

/-- C8 amended theorem at a concrete input: an existing-key append of a
well-shaped block. -/
theorem claim_C8_layer_append_invariant_witness :
    (LayerSharesN ⟨2, true, [((0, 0), ⟨[1, 2, 2], List.replicate 4 0⟩)]⟩ 2 ∧
     GoodBlock 2 2 0 ⟨[1, 2, 2], List.replicate 4 0⟩ ∧
     Layer.appendBlock ⟨2, true, [((0, 0), ⟨[1, 2, 2], List.replicate 4 0⟩)]⟩ 0 0
       ⟨[1, 2, 2], List.replicate 4 0⟩ =
       Except.ok ⟨2, true,
         [((0, 0), ⟨[2, 2, 2], List.replicate 4 0 ++ List.replicate 4 0⟩)]⟩) ∧
    ((Layer.D ⟨2, true,
        [((0, 0), ⟨[2, 2, 2], List.replicate 4 0 ++ List.replicate 4 0⟩)]⟩ = 2 ∧
      Layer.is_torus ⟨2, true,
        [((0, 0), ⟨[2, 2, 2], List.replicate 4 0 ++ List.replicate 4 0⟩)]⟩ = true ∧
      LayerSharesN ⟨2, true,
        [((0, 0), ⟨[2, 2, 2], List.replicate 4 0 ++ List.replicate 4 0⟩)]⟩ 2) ∧
     (∀ L2 L3 : Layer, LayerSharesN L2 2 →
        Layer.D ⟨2, true,
          [((0, 0), ⟨[2, 2, 2], List.replicate 4 0 ++ List.replicate 4 0⟩)]⟩ = L2.D →
        Layer.addLayer ⟨2, true,
          [((0, 0), ⟨[2, 2, 2], List.replicate 4 0 ++ List.replicate 4 0⟩)]⟩ L2 =
          Except.ok L3 →
        L3.D = 2 ∧ L3.is_torus = true ∧ LayerSharesN L3 2)) := by
  have hL : LayerSharesN ⟨2, true, [((0, 0), ⟨[1, 2, 2], List.replicate 4 0⟩)]⟩ 2 := by
    intro kb hkb
    rw [List.mem_singleton.mp hkb]
    exact ⟨1, rfl⟩
  have hb : GoodBlock 2 2 0 ⟨[1, 2, 2], List.replicate 4 0⟩ := ⟨1, rfl⟩
  have happ : Layer.appendBlock ⟨2, true, [((0, 0), ⟨[1, 2, 2], List.replicate 4 0⟩)]⟩
      0 0 ⟨[1, 2, 2], List.replicate 4 0⟩ =
      Except.ok ⟨2, true,
        [((0, 0), ⟨[2, 2, 2], List.replicate 4 0 ++ List.replicate 4 0⟩)]⟩ := by rfl
  exact ⟨⟨hL, hb, happ⟩,
    claim_C8_layer_append_invariant _ 2 0 0 _ _ hL hb happ⟩
/-- `to_vector` is the concatenation of the blocks' flattened values. -/
theorem to_vector_eq_flatMap (L : Layer) :
    L.to_vector = L.blocks.flatMap (fun kb => kb.2.vals) := by
  unfold Layer.to_vector
  suffices h : ∀ (bs : List ((ℕ × ℕ) × Block)) (acc : List ℤ),
      bs.foldl (fun acc kb => acc ++ kb.2.vals) acc =
        acc ++ bs.flatMap (fun kb => kb.2.vals) by
    rw [h L.blocks [], List.nil_append]
  intro bs
  induction bs with
  | nil => intro acc; rw [List.foldl_nil, List.flatMap_nil, List.append_nil]
  | cons kb rest ih =>
    intro acc
    rw [List.foldl_cons, ih, List.flatMap_cons, List.append_assoc]

/-- Walking the template blocks over the exact concatenation of their values
rebuilds them unchanged: each key is fresh, so every `appendBlock` creates the
key at the end, with the very slice that `to_vector` wrote there. -/
theorem fromVectorAux_roundtrip (D : ℕ) (tor : Bool) (v : List ℤ) :
    ∀ (bs done : List ((ℕ × ℕ) × Block)) (idx : ℕ),
      (∀ kb ∈ bs, kb.2.vals.length = kb.2.shape.prod) →
      (∀ kb ∈ bs, kb.1.1 = 0 ∨ kb.2.shape.drop (kb.2.shape.length - kb.1.1) =
        List.replicate kb.1.1 D) →
      (done.map Prod.fst ++ bs.map Prod.fst).Nodup →
      v.drop idx = bs.flatMap (fun kb => kb.2.vals) →
      fromVectorAux v bs idx ⟨D, tor, done⟩ = Except.ok ⟨D, tor, done ++ bs⟩ := by
  intro bs
  induction bs with
  | nil =>
    intro done idx _ _ _ _
    rw [List.append_nil]
    rfl
  | cons hd rest ih =>
    obtain ⟨key, img⟩ := hd
    intro done idx hval htr hnd hdrop
    rw [List.flatMap_cons] at hdrop
    have hlen : img.vals.length = img.shape.prod :=
      hval (key, img) (List.mem_cons_self _ _)
    have hslice : (v.drop idx).take img.shape.prod = img.vals := by
      rw [hdrop, ← hlen, List.take_left]
    have hslen : ((v.drop idx).take img.shape.prod).length = img.shape.prod := by
      rw [hslice, hlen]
    have hkey : key ∉ done.map Prod.fst := by
      intro hmem
      exact List.disjoint_of_nodup_append hnd hmem
        (by rw [List.map_cons]; exact List.mem_cons_self _ _)
    have happ : Layer.appendBlock ⟨D, tor, done⟩ key.1 key.2
        ⟨img.shape, (v.drop idx).take img.shape.prod⟩ =
        Except.ok ⟨D, tor, done ++ [(key, img)]⟩ := by
      unfold Layer.appendBlock
      have hcond : ¬ (key.1 > 0 ∧
          ¬ (Block.shape ⟨img.shape, (v.drop idx).take img.shape.prod⟩).drop
            ((Block.shape ⟨img.shape, (v.drop idx).take img.shape.prod⟩).length - key.1) =
            List.replicate key.1 (Layer.D ⟨D, tor, done⟩)) := by
        rcases htr (key, img) (List.mem_cons_self _ _) with h0 | hsh
        · intro hco
          rw [h0] at hco
          exact absurd hco.1 (by omega)
        · intro hco
          exact hco.2 hsh
      rw [if_neg hcond]
      have hnin : ¬ ((key.1, key.2) ∈ Layer.layerKeys ⟨D, tor, done⟩) := by
        show ¬ ((key.1, key.2) ∈ done.map Prod.fst)
        intro hmem
        exact hkey hmem
      rw [if_neg hnin]
      show Except.ok _ = _
      rw [hslice]
    show (if ((v.drop idx).take img.shape.prod).length = img.shape.prod then _ else _) = _
    rw [if_pos hslen, happ]
    have hdrop2 : v.drop (idx + img.shape.prod) =
        rest.flatMap (fun kb => kb.2.vals) := by
      rw [← List.drop_drop, hdrop, ← hlen, List.drop_left]
    have hnd2 : ((done ++ [(key, img)]).map Prod.fst ++ rest.map Prod.fst).Nodup := by
      rw [List.map_append, List.append_assoc]
      show (done.map Prod.fst ++ ([(key, img)].map Prod.fst ++ rest.map Prod.fst)).Nodup
      rw [List.map_singleton, List.singleton_append]
      rw [List.map_cons] at hnd
      exact hnd
    have hrec := ih (done ++ [(key, img)]) (idx + img.shape.prod)
      (fun kb hkb => hval kb (List.mem_cons_of_mem _ hkb))
      (fun kb hkb => htr kb (List.mem_cons_of_mem _ hkb)) hnd2 hdrop2
    show fromVectorAux v rest (idx + img.shape.prod)
        ⟨D, tor, done ++ [(key, img)]⟩ =
      Except.ok ⟨D, tor, done ++ (key, img) :: rest⟩
    rw [hrec, List.append_assoc, List.singleton_append]

/-- C9: for a non-empty layer with well-formed blocks (physical value lists of
the shapes' sizes, valid trailing tensor axes, and the dict's distinct keys),
`Layer.from_vector(L.to_vector(), L)` rebuilds `L` exactly. -/
theorem claim_C9_layer_vector_roundtrip (L : Layer)
    (_hne : L.blocks ≠ [])
    (hval : ∀ kb ∈ L.blocks, kb.2.vals.length = kb.2.shape.prod)
    (htr : ∀ kb ∈ L.blocks, kb.1.1 = 0 ∨
      kb.2.shape.drop (kb.2.shape.length - kb.1.1) = List.replicate kb.1.1 L.D)
    (hkeys : L.layerKeys.Nodup) :
    Layer.from_vector L.to_vector L = Except.ok L := by
  unfold Layer.from_vector Layer.emptyLayer
  have h := fromVectorAux_roundtrip L.D L.is_torus L.to_vector L.blocks [] 0
    hval htr (by rw [List.map_nil, List.nil_append]; exact hkeys)
    (by rw [List.drop_zero, to_vector_eq_flatMap])
  rw [h, List.nil_append]

/-- C9 at a concrete one-block layer. -/
theorem claim_C9_layer_vector_roundtrip_witness :
    ((Layer.blocks ⟨2, true, [((0, 0), ⟨[1, 2, 2], [1, 2, 3, 4]⟩)]⟩ ≠ [] ∧
      (∀ kb ∈ Layer.blocks ⟨2, true, [((0, 0), ⟨[1, 2, 2], [1, 2, 3, 4]⟩)]⟩,
        kb.2.vals.length = kb.2.shape.prod) ∧
      (∀ kb ∈ Layer.blocks ⟨2, true, [((0, 0), ⟨[1, 2, 2], [1, 2, 3, 4]⟩)]⟩,
        kb.1.1 = 0 ∨ kb.2.shape.drop (kb.2.shape.length - kb.1.1) =
          List.replicate kb.1.1 2) ∧
      (Layer.layerKeys ⟨2, true, [((0, 0), ⟨[1, 2, 2], [1, 2, 3, 4]⟩)]⟩).Nodup) ∧
     Layer.from_vector
       (Layer.to_vector ⟨2, true, [((0, 0), ⟨[1, 2, 2], [1, 2, 3, 4]⟩)]⟩)
       ⟨2, true, [((0, 0), ⟨[1, 2, 2], [1, 2, 3, 4]⟩)]⟩ =
       Except.ok ⟨2, true, [((0, 0), ⟨[1, 2, 2], [1, 2, 3, 4]⟩)]⟩) :=
  ⟨⟨by decide, by decide, by decide, by decide⟩,
    claim_C9_layer_vector_roundtrip _ (by decide) (by decide) (by decide) (by decide)⟩

/-- The first 25 letters of `LETTERS` are strictly increasing (the duplicate
`x` sits at position 25). -/
theorem letters_lower_mono :
    ∀ p < 25, ∀ q < 25, p < q → LETTERS.getD p ' ' < LETTERS.getD q ' ' := by
  decide

/-- The pair capitals are strictly decreasing in the pair index. -/
theorem letters_cap_anti :
    ∀ i < 26, ∀ j < 26, i < j → capLetter j < capLetter i := by
  decide

/-- A lowercase letter of the first 25 never equals a pair capital. -/
theorem letters_lower_ne_cap :
    ∀ p < 25, ∀ i < 26, LETTERS.getD p ' ' ≠ capLetter i := by
  decide

/-- Distinct pair indices get distinct capitals. -/
theorem capLetter_inj {i j : ℕ} (hi : i < 26) (hj : j < 26)
    (h : capLetter i = capLetter j) : i = j := by
  by_contra hne
  rcases Nat.lt_or_ge i j with hlt | hge
  · exact absurd h (ne_of_gt (letters_cap_anti i hi j hj hlt))
  · have hlt : j < i := lt_of_le_of_ne hge (fun he => hne he.symm)
    exact absurd h.symm (ne_of_gt (letters_cap_anti j hj i hi hlt))

/-- A duplicate-free list whose members all equal `p0`, containing `p0`, is
`[p0]`. -/
theorem filter_eq_singleton_of {l : List ℕ} {pred : ℕ → Bool} {p0 : ℕ}
    (hnd : l.Nodup) (hmem : p0 ∈ l) (hp : pred p0 = true)
    (hu : ∀ q ∈ l, pred q = true → q = p0) :
    l.filter pred = [p0] := by
  have h1 : ∀ q ∈ l.filter pred, q = p0 := fun q hq =>
    hu q (List.mem_filter.mp hq).1 (List.mem_filter.mp hq).2
  have h2 : p0 ∈ l.filter pred := List.mem_filter.mpr ⟨hmem, hp⟩
  have h3 : (l.filter pred).Nodup := List.Nodup.sublist (List.filter_sublist l) hnd
  cases hf : l.filter pred with
  | nil => rw [hf] at h2; exact absurd h2 (List.not_mem_nil _)
  | cons a tail =>
    rw [hf] at h1 h2 h3
    have ha : a = p0 := h1 a (List.mem_cons_self _ _)
    have htail : tail = [] := by
      cases tail with
      | nil => rfl
      | cons b tb =>
        have hb : b = p0 := h1 b (List.mem_cons_of_mem _ (List.mem_cons_self _ _))
        rw [List.nodup_cons] at h3
        exact absurd (show a ∈ b :: tb by
          rw [ha, ← hb]; exact List.mem_cons_self _ _) h3.1
    rw [ha, htail]

/-- Filtering `range n` by a predicate whose satisfiers are exactly `a < b`
gives `[a, b]`. -/
theorem filter_range_eq_pair {n a b : ℕ} {pred : ℕ → Bool}
    (hab : a < b) (hbn : b < n) (hpa : pred a = true) (hpb : pred b = true)
    (hu : ∀ q, q < n → pred q = true → q = a ∨ q = b) :
    (List.range n).filter pred = [a, b] := by
  have hsorted : List.Pairwise (· < ·) ((List.range n).filter pred) :=
    List.Pairwise.sublist (List.filter_sublist _) (List.pairwise_lt_range n)
  have hnd : ((List.range n).filter pred).Nodup :=
    List.Nodup.sublist (List.filter_sublist _) (List.nodup_range n)
  have hmem : ∀ q ∈ (List.range n).filter pred, q = a ∨ q = b := by
    intro q hq
    have h1 := List.mem_filter.mp hq
    exact hu q (List.mem_range.mp h1.1) h1.2
  have hma : a ∈ (List.range n).filter pred :=
    List.mem_filter.mpr ⟨List.mem_range.mpr (lt_trans hab hbn), hpa⟩
  have hmb : b ∈ (List.range n).filter pred :=
    List.mem_filter.mpr ⟨List.mem_range.mpr hbn, hpb⟩
  have hndab : ([a, b] : List ℕ).Nodup := by
    rw [List.nodup_cons]
    exact ⟨by rw [List.mem_singleton]; exact hab.ne, List.nodup_singleton b⟩
  have hperm : ((List.range n).filter pred).Perm [a, b] := by
    refine List.Subperm.antisymm ?_ ?_
    · refine List.subperm_of_subset hnd ?_
      intro q hq
      rcases hmem q hq with h | h
      · rw [h]; exact List.mem_cons_self _ _
      · rw [h]; exact List.mem_cons_of_mem _ (List.mem_cons_self _ _)
    · refine List.subperm_of_subset hndab ?_
      intro q hq
      rcases List.mem_cons.mp hq with h | h
      · rw [h]; exact hma
      · rw [List.mem_singleton.mp h]; exact hmb
  refine List.eq_of_perm_of_sorted hperm hsorted ?_
  refine List.Pairwise.cons ?_ (List.pairwise_singleton _ _)
  intro q hq
  rw [List.mem_singleton.mp hq]
  exact hab

/-- The flattened contraction-position list has twice as many entries as
there are pairs. -/
theorem contr_length (ps : List (ℕ × ℕ)) (s : ℕ) :
    (ps.flatMap (fun pr => [pr.1 + s, pr.2 + s])).length = 2 * ps.length := by
  induction ps with
  | nil => rfl
  | cons pr rest ih =>
    rw [List.flatMap_cons, List.length_append, ih, List.length_cons]
    show 2 + 2 * rest.length = 2 * (rest.length + 1)
    omega

theorem canonEinstr_length (n s : ℕ) (ps : List (ℕ × ℕ)) :
    (canonEinstr n s ps).length = n := by
  unfold canonEinstr
  rw [List.length_map, List.length_range]

theorem canonEinstr_getElem {n s : ℕ} {ps : List (ℕ × ℕ)} {q : ℕ}
    (h : q < (canonEinstr n s ps).length) :
    (canonEinstr n s ps)[q] =
      match ps.findIdx? (fun pr => pr.1 + s == q || pr.2 + s == q) with
      | some i => capLetter i
      | none => LETTERS.getD q ' ' := by
  unfold canonEinstr at h ⊢
  rw [List.getElem_map, List.getElem_range]

theorem canonEinstr_getD {n s : ℕ} {ps : List (ℕ × ℕ)} {q : ℕ} (hq : q < n) :
    (canonEinstr n s ps).getD q ' ' =
      match ps.findIdx? (fun pr => pr.1 + s == q || pr.2 + s == q) with
      | some i => capLetter i
      | none => LETTERS.getD q ' ' := by
  rw [List.getD_eq_getElem _ _ (by rw [canonEinstr_length]; exact hq),
    canonEinstr_getElem]

/-- On distinct in-range contracted positions, `buildEinstr` produces exactly
the canonical letter string. -/
theorem buildEinstr_eq (n s : ℕ) (ps : List (ℕ × ℕ))
    (hnd : (ps.flatMap (fun pr => [pr.1 + s, pr.2 + s])).Nodup)
    (hlt : ∀ q ∈ ps.flatMap (fun pr => [pr.1 + s, pr.2 + s]), q < n) :
    buildEinstr n ps s = canonEinstr n s ps := by
  induction ps using List.reverseRecOn with
  | nil => rfl
  | append_singleton qs pr ih =>
    have hnd' : (qs.flatMap (fun pr => [pr.1 + s, pr.2 + s])).Nodup := by
      rw [List.flatMap_append] at hnd
      exact List.Nodup.sublist (List.sublist_append_left _ _) hnd
    have hlt' : ∀ q ∈ qs.flatMap (fun pr => [pr.1 + s, pr.2 + s]), q < n := by
      intro q hq
      refine hlt q ?_
      rw [List.flatMap_append]
      exact List.mem_append.mpr (Or.inl hq)
    have hsg : ∀ q, q ∈ ([pr] : List (ℕ × ℕ)).flatMap
        (fun p2 => [p2.1 + s, p2.2 + s]) ↔ q ∈ [pr.1 + s, pr.2 + s] := by
      intro q
      rw [List.flatMap_cons, List.flatMap_nil, List.append_nil]
    have hdisj : ∀ q ∈ [pr.1 + s, pr.2 + s],
        q ∉ qs.flatMap (fun p2 => [p2.1 + s, p2.2 + s]) := by
      intro q hq hmem
      rw [List.flatMap_append] at hnd
      exact List.disjoint_of_nodup_append hnd hmem ((hsg q).mpr hq)
    have hprnd : ([pr.1 + s, pr.2 + s] : List ℕ).Nodup := by
      rw [List.flatMap_append] at hnd
      have h2 := List.Nodup.sublist (List.sublist_append_right _ _) hnd
      rw [List.flatMap_cons, List.flatMap_nil, List.append_nil] at h2
      exact h2
    have hab : pr.1 + s ≠ pr.2 + s := by
      rw [List.nodup_cons] at hprnd
      intro he
      exact hprnd.1 (by rw [he]; exact List.mem_cons_self _ _)
    have hltpr1 : pr.1 + s < n := hlt _ (by
      rw [List.flatMap_append]
      exact List.mem_append.mpr (Or.inr ((hsg _).mpr (List.mem_cons_self _ _))))
    have hltpr2 : pr.2 + s < n := hlt _ (by
      rw [List.flatMap_append]
      exact List.mem_append.mpr (Or.inr ((hsg _).mpr
        (List.mem_cons_of_mem _ (List.mem_cons_self _ _)))))
    show (qs ++ [pr]).enum.foldl _ _ = _
    rw [List.enum_append, List.foldl_append]
    show ((buildEinstr n qs s).set (pr.1 + s)
        (LETTERS.getD (52 - (qs.length + 1)) ' ')).set (pr.2 + s)
        (LETTERS.getD (52 - (qs.length + 1)) ' ') = canonEinstr n s (qs ++ [pr])
    rw [ih hnd' hlt']
    have hcap : LETTERS.getD (52 - (qs.length + 1)) ' ' = capLetter qs.length := by
      unfold capLetter
      congr 1
      omega
    rw [hcap]
    refine List.ext_getElem ?_ ?_
    · rw [List.length_set, List.length_set, canonEinstr_length, canonEinstr_length]
    · intro q h1 h2
      have hqn : q < n := by
        rw [List.length_set, List.length_set, canonEinstr_length] at h1
        exact h1
      rw [List.getElem_set, List.getElem_set, canonEinstr_getElem, canonEinstr_getElem,
        List.findIdx?_append]
      by_cases hq2 : pr.2 + s = q
      · rw [if_pos hq2]
        have hnone : qs.findIdx? (fun p2 => p2.1 + s == q || p2.2 + s == q) = none := by
          rw [List.findIdx?_eq_none_iff]
          intro x hx
          by_contra hbx
          have hbx' : (x.1 + s == q || x.2 + s == q) = true := by
            cases hb : (x.1 + s == q || x.2 + s == q) with
            | false => exact absurd hb hbx
            | true => rfl
          rw [Bool.or_eq_true, beq_iff_eq, beq_iff_eq] at hbx'
          have hqmem : q ∈ [pr.1 + s, pr.2 + s] := by
            rw [← hq2]
            exact List.mem_cons_of_mem _ (List.mem_cons_self _ _)
          refine hdisj q hqmem ?_
          rw [List.mem_flatMap]
          refine ⟨x, hx, ?_⟩
          rcases hbx' with h | h
          · rw [← h]; exact List.mem_cons_self _ _
          · rw [← h]; exact List.mem_cons_of_mem _ (List.mem_cons_self _ _)
        have hsingle : ([pr] : List (ℕ × ℕ)).findIdx?
            (fun p2 => p2.1 + s == q || p2.2 + s == q) = some 0 := by
          rw [List.findIdx?_cons, if_pos ?_]
          rw [Bool.or_eq_true, beq_iff_eq, beq_iff_eq]
          exact Or.inr hq2
        rw [hnone, hsingle]
        show capLetter qs.length = capLetter (0 + qs.length)
        rw [Nat.zero_add]
      · rw [if_neg hq2]
        by_cases hq1 : pr.1 + s = q
        · rw [if_pos hq1]
          have hnone : qs.findIdx? (fun p2 => p2.1 + s == q || p2.2 + s == q) = none := by
            rw [List.findIdx?_eq_none_iff]
            intro x hx
            by_contra hbx
            have hbx' : (x.1 + s == q || x.2 + s == q) = true := by
              cases hb : (x.1 + s == q || x.2 + s == q) with
              | false => exact absurd hb hbx
              | true => rfl
            rw [Bool.or_eq_true, beq_iff_eq, beq_iff_eq] at hbx'
            have hqmem : q ∈ [pr.1 + s, pr.2 + s] := by
              rw [← hq1]
              exact List.mem_cons_self _ _
            refine hdisj q hqmem ?_
            rw [List.mem_flatMap]
            refine ⟨x, hx, ?_⟩
            rcases hbx' with h | h
            · rw [← h]; exact List.mem_cons_self _ _
            · rw [← h]; exact List.mem_cons_of_mem _ (List.mem_cons_self _ _)
          have hsingle : ([pr] : List (ℕ × ℕ)).findIdx?
              (fun p2 => p2.1 + s == q || p2.2 + s == q) = some 0 := by
            rw [List.findIdx?_cons, if_pos ?_]
            rw [Bool.or_eq_true, beq_iff_eq, beq_iff_eq]
            exact Or.inl hq1
          rw [hnone, hsingle]
          show capLetter qs.length = capLetter (0 + qs.length)
          rw [Nat.zero_add]
        · rw [if_neg hq1]
          have hsingle : ([pr] : List (ℕ × ℕ)).findIdx?
              (fun p2 => p2.1 + s == q || p2.2 + s == q) = none := by
            rw [List.findIdx?_cons, if_neg ?_, List.findIdx?_nil]
            rw [Bool.or_eq_true, beq_iff_eq, beq_iff_eq]
            intro h
            rcases h with h | h
            · exact hq1 h
            · exact hq2 h
          rw [hsingle]
          rw [Option.map_none', Option.or_none]

/-- Distinct pairs occupy disjoint shifted positions. -/
theorem pairs_disjoint {s : ℕ} {ps : List (ℕ × ℕ)}
    (hnd : (ps.flatMap (fun pr => [pr.1 + s, pr.2 + s])).Nodup)
    {i j : ℕ} (hi : i < ps.length) (hj : j < ps.length) (hij : i ≠ j)
    {q : ℕ} (hqi : ps[i].1 + s = q ∨ ps[i].2 + s = q)
    (hqj : ps[j].1 + s = q ∨ ps[j].2 + s = q) : False := by
  obtain ⟨_, hpair⟩ := List.nodup_flatMap.mp hnd
  have hmemi : q ∈ [ps[i].1 + s, ps[i].2 + s] := by
    rcases hqi with h | h
    · rw [← h]; exact List.mem_cons_self _ _
    · rw [← h]; exact List.mem_cons_of_mem _ (List.mem_cons_self _ _)
  have hmemj : q ∈ [ps[j].1 + s, ps[j].2 + s] := by
    rcases hqj with h | h
    · rw [← h]; exact List.mem_cons_self _ _
    · rw [← h]; exact List.mem_cons_of_mem _ (List.mem_cons_self _ _)
  rcases Nat.lt_or_ge i j with hlt | hge
  · exact (List.pairwise_iff_getElem.mp hpair i j hi hj hlt) hmemi hmemj
  · have hlt : j < i := lt_of_le_of_ne hge (fun he => hij he.symm)
    exact (List.pairwise_iff_getElem.mp hpair j i hj hi hlt) hmemj hmemi

/-- What a successful pair lookup returns. -/
theorem findIdx_some_bound {s q : ℕ} {ps : List (ℕ × ℕ)} {i : ℕ}
    (h : ps.findIdx? (fun pr => pr.1 + s == q || pr.2 + s == q) = some i) :
    ∃ hi : i < ps.length, (ps[i].1 + s = q ∨ ps[i].2 + s = q) := by
  obtain ⟨hi, hp, _⟩ := List.findIdx?_eq_some_iff_getElem.mp h
  rw [Bool.or_eq_true, beq_iff_eq, beq_iff_eq] at hp
  exact ⟨hi, hp⟩

/-- At either shifted position of pair `i`, the lookup finds exactly pair `i`. -/
theorem findIdx_at_pair {s : ℕ} {ps : List (ℕ × ℕ)}
    (hnd : (ps.flatMap (fun pr => [pr.1 + s, pr.2 + s])).Nodup)
    {i q : ℕ} (hi : i < ps.length) (hq : ps[i].1 + s = q ∨ ps[i].2 + s = q) :
    ps.findIdx? (fun pr => pr.1 + s == q || pr.2 + s == q) = some i := by
  rw [List.findIdx?_eq_some_iff_getElem]
  refine ⟨hi, ?_, ?_⟩
  · rw [Bool.or_eq_true, beq_iff_eq, beq_iff_eq]
    exact hq
  · intro j hji
    intro hb
    rw [Bool.or_eq_true, beq_iff_eq, beq_iff_eq] at hb
    exact pairs_disjoint hnd (lt_trans hji hi) hi (Nat.ne_of_lt hji) hb hq

/-- Membership in the flattened contraction positions, indexed. -/
theorem mem_contr_iff {s q : ℕ} {ps : List (ℕ × ℕ)} :
    q ∈ ps.flatMap (fun pr => [pr.1 + s, pr.2 + s]) ↔
      ∃ i, ∃ hi : i < ps.length, (ps[i].1 + s = q ∨ ps[i].2 + s = q) := by
  rw [List.mem_flatMap]
  constructor
  · rintro ⟨pr, hpr, hq⟩
    obtain ⟨i, hi, hpe⟩ := List.mem_iff_getElem.mp hpr
    refine ⟨i, hi, ?_⟩
    rw [hpe]
    rcases List.mem_cons.mp hq with h | h
    · exact Or.inl h.symm
    · exact Or.inr (List.mem_singleton.mp h).symm
  · rintro ⟨i, hi, hq⟩
    refine ⟨ps[i], List.getElem_mem hi, ?_⟩
    rcases hq with h | h
    · rw [← h]; exact List.mem_cons_self _ _
    · rw [← h]; exact List.mem_cons_of_mem _ (List.mem_cons_self _ _)

/-- With distinct in-range positions there can be at most `n/2` pairs. -/
theorem pairs_bound {n s : ℕ} {ps : List (ℕ × ℕ)}
    (hnd : (ps.flatMap (fun pr => [pr.1 + s, pr.2 + s])).Nodup)
    (hlt : ∀ q ∈ ps.flatMap (fun pr => [pr.1 + s, pr.2 + s]), q < n) :
    2 * ps.length ≤ n := by
  have hsub : ps.flatMap (fun pr => [pr.1 + s, pr.2 + s]) ⊆ List.range n := by
    intro q hq
    exact List.mem_range.mpr (hlt q hq)
  have hle := (List.subperm_of_subset hnd hsub).length_le
  rw [contr_length, List.length_range] at hle
  exact hle

/-- A free position's lowercase letter occurs exactly once in the canonical
string. -/
theorem count_free {n s : ℕ} {ps : List (ℕ × ℕ)} (h25 : n ≤ 25)
    (hnd : (ps.flatMap (fun pr => [pr.1 + s, pr.2 + s])).Nodup)
    (hlt : ∀ q ∈ ps.flatMap (fun pr => [pr.1 + s, pr.2 + s]), q < n)
    {p0 : ℕ} (hp0 : p0 < n)
    (hfree : ps.findIdx? (fun pr => pr.1 + s == p0 || pr.2 + s == p0) = none) :
    (canonEinstr n s ps).count (LETTERS.getD p0 ' ') = 1 := by
  have hP : ps.length < 26 := by
    have := pairs_bound hnd hlt
    omega
  unfold canonEinstr
  rw [List.count_eq_countP, List.countP_map, List.countP_eq_length_filter]
  have hfil : (List.range n).filter
      ((fun x => x == LETTERS.getD p0 ' ') ∘ (fun p =>
        match ps.findIdx? (fun pr => pr.1 + s == p || pr.2 + s == p) with
        | some i => capLetter i
        | none => LETTERS.getD p ' ')) = [p0] := by
    refine filter_eq_singleton_of (List.nodup_range n) (List.mem_range.mpr hp0) ?_ ?_
    · show ((match ps.findIdx? (fun pr => pr.1 + s == p0 || pr.2 + s == p0) with
        | some i => capLetter i
        | none => LETTERS.getD p0 ' ') == LETTERS.getD p0 ' ') = true
      rw [hfree]
      exact beq_self_eq_true _
    · intro q hq hbq
      have hqn : q < n := List.mem_range.mp hq
      revert hbq
      show ((match ps.findIdx? (fun pr => pr.1 + s == q || pr.2 + s == q) with
        | some i => capLetter i
        | none => LETTERS.getD q ' ') == LETTERS.getD p0 ' ') = true → q = p0
      cases hfq : ps.findIdx? (fun pr => pr.1 + s == q || pr.2 + s == q) with
      | some i =>
        intro hbq
        rw [beq_iff_eq] at hbq
        obtain ⟨hi, _⟩ := findIdx_some_bound hfq
        exact absurd hbq.symm
          (letters_lower_ne_cap p0 (by omega) i (by omega))
      | none =>
        intro hbq
        rw [beq_iff_eq] at hbq
        by_contra hne
        rcases Nat.lt_or_ge q p0 with hlt2 | hge
        · exact absurd hbq (ne_of_lt (letters_lower_mono q (by omega) p0 (by omega) hlt2))
        · have hlt2 : p0 < q := lt_of_le_of_ne hge (fun he => hne he.symm)
          exact absurd hbq.symm
            (ne_of_lt (letters_lower_mono p0 (by omega) q (by omega) hlt2))
  rw [hfil]
  rfl

/-- A pair's capital occurs exactly twice in the canonical string. -/
theorem count_cap {n s : ℕ} {ps : List (ℕ × ℕ)} (h25 : n ≤ 25)
    (hnd : (ps.flatMap (fun pr => [pr.1 + s, pr.2 + s])).Nodup)
    (hlt : ∀ q ∈ ps.flatMap (fun pr => [pr.1 + s, pr.2 + s]), q < n)
    (hij : ∀ pr ∈ ps, pr.1 < pr.2)
    {i : ℕ} (hi : i < ps.length) :
    (canonEinstr n s ps).count (capLetter i) = 2 := by
  have hP : ps.length < 26 := by
    have := pairs_bound hnd hlt
    omega
  have hmem1 : ps[i].1 + s ∈ ps.flatMap (fun pr => [pr.1 + s, pr.2 + s]) :=
    mem_contr_iff.mpr ⟨i, hi, Or.inl rfl⟩
  have hmem2 : ps[i].2 + s ∈ ps.flatMap (fun pr => [pr.1 + s, pr.2 + s]) :=
    mem_contr_iff.mpr ⟨i, hi, Or.inr rfl⟩
  have hab : ps[i].1 + s < ps[i].2 + s := by
    have := hij ps[i] (List.getElem_mem hi)
    omega
  unfold canonEinstr
  rw [List.count_eq_countP, List.countP_map, List.countP_eq_length_filter]
  have hfil : (List.range n).filter
      ((fun x => x == capLetter i) ∘ (fun p =>
        match ps.findIdx? (fun pr => pr.1 + s == p || pr.2 + s == p) with
        | some j => capLetter j
        | none => LETTERS.getD p ' ')) = [ps[i].1 + s, ps[i].2 + s] := by
    refine filter_range_eq_pair hab (hlt _ hmem2) ?_ ?_ ?_
    · show ((match ps.findIdx? (fun pr =>
          pr.1 + s == ps[i].1 + s || pr.2 + s == ps[i].1 + s) with
        | some j => capLetter j
        | none => LETTERS.getD (ps[i].1 + s) ' ') == capLetter i) = true
      rw [findIdx_at_pair hnd hi (Or.inl rfl)]
      exact beq_self_eq_true _
    · show ((match ps.findIdx? (fun pr =>
          pr.1 + s == ps[i].2 + s || pr.2 + s == ps[i].2 + s) with
        | some j => capLetter j
        | none => LETTERS.getD (ps[i].2 + s) ' ') == capLetter i) = true
      rw [findIdx_at_pair hnd hi (Or.inr rfl)]
      exact beq_self_eq_true _
    · intro q hqn
      show ((match ps.findIdx? (fun pr => pr.1 + s == q || pr.2 + s == q) with
        | some j => capLetter j
        | none => LETTERS.getD q ' ') == capLetter i) = true →
        q = ps[i].1 + s ∨ q = ps[i].2 + s
      cases hfq : ps.findIdx? (fun pr => pr.1 + s == q || pr.2 + s == q) with
      | some j =>
        intro hbq
        rw [beq_iff_eq] at hbq
        obtain ⟨hj, hqj⟩ := findIdx_some_bound hfq
        have hji : j = i := capLetter_inj (by omega) (by omega) hbq
        subst hji
        rcases hqj with h | h
        · exact Or.inl h.symm
        · exact Or.inr h.symm
      | none =>
        intro hbq
        rw [beq_iff_eq] at hbq
        exact absurd hbq (letters_lower_ne_cap q (by omega) i (by omega))
  rw [hfil]
  rfl

/-- The lookup fails exactly off the contracted positions. -/
theorem findIdx_none_iff_not_mem {s q : ℕ} {ps : List (ℕ × ℕ)} :
    ps.findIdx? (fun pr => pr.1 + s == q || pr.2 + s == q) = none ↔
      q ∉ ps.flatMap (fun pr => [pr.1 + s, pr.2 + s]) := by
  rw [List.findIdx?_eq_none_iff]
  constructor
  · intro h hmem
    obtain ⟨x, hx, hq⟩ := List.mem_flatMap.mp hmem
    have hfx := h x hx
    have hq' : x.1 + s = q ∨ x.2 + s = q := by
      rcases List.mem_cons.mp hq with hh | hh
      · exact Or.inl hh.symm
      · exact Or.inr (List.mem_singleton.mp hh).symm
    have : (x.1 + s == q || x.2 + s == q) = true := by
      rw [Bool.or_eq_true, beq_iff_eq, beq_iff_eq]
      exact hq'
    rw [hfx] at this
    exact Bool.false_ne_true this
  · intro h x hx
    cases hb : (x.1 + s == q || x.2 + s == q) with
    | false => rfl
    | true =>
      rw [Bool.or_eq_true, beq_iff_eq, beq_iff_eq] at hb
      refine absurd ?_ h
      rw [List.mem_flatMap]
      refine ⟨x, hx, ?_⟩
      rcases hb with hh | hh
      · rw [← hh]; exact List.mem_cons_self _ _
      · rw [← hh]; exact List.mem_cons_of_mem _ (List.mem_cons_self _ _)

/-- The einsum free positions are exactly the non-contracted positions, in
their natural order. -/
theorem freePos_eq {n s : ℕ} {ps : List (ℕ × ℕ)} (h25 : n ≤ 25)
    (hnd : (ps.flatMap (fun pr => [pr.1 + s, pr.2 + s])).Nodup)
    (hlt : ∀ q ∈ ps.flatMap (fun pr => [pr.1 + s, pr.2 + s]), q < n)
    (hij : ∀ pr ∈ ps, pr.1 < pr.2) :
    List.insertionSort
      (fun p q => (canonEinstr n s ps).getD p ' ' ≤ (canonEinstr n s ps).getD q ' ')
      ((List.range (canonEinstr n s ps).length).filter
        (fun p => (canonEinstr n s ps).count ((canonEinstr n s ps).getD p ' ') == 1)) =
    (List.range n).filter
      (fun p => !((ps.flatMap (fun pr => [pr.1 + s, pr.2 + s])).contains p)) := by
  rw [canonEinstr_length]
  have hfil : (List.range n).filter
      (fun p => (canonEinstr n s ps).count ((canonEinstr n s ps).getD p ' ') == 1) =
      (List.range n).filter
        (fun p => !((ps.flatMap (fun pr => [pr.1 + s, pr.2 + s])).contains p)) := by
    refine List.filter_congr ?_
    intro p hp
    have hpn : p < n := List.mem_range.mp hp
    rw [canonEinstr_getD hpn]
    cases hfp : ps.findIdx? (fun pr => pr.1 + s == p || pr.2 + s == p) with
    | none =>
      have hcnt := count_free h25 hnd hlt hpn hfp
      have hnm : p ∉ ps.flatMap (fun pr => [pr.1 + s, pr.2 + s]) :=
        findIdx_none_iff_not_mem.mp hfp
      rw [hcnt]
      have hco : (ps.flatMap (fun pr => [pr.1 + s, pr.2 + s])).contains p = false := by
        show List.elem p _ = false
        rw [List.elem_eq_mem]
        exact decide_eq_false hnm
      rw [hco]
      rfl
    | some i =>
      obtain ⟨hi, hqi⟩ := findIdx_some_bound hfp
      have hcnt := count_cap h25 hnd hlt hij hi
      rw [hcnt]
      have hmem : p ∈ ps.flatMap (fun pr => [pr.1 + s, pr.2 + s]) :=
        mem_contr_iff.mpr ⟨i, hi, hqi⟩
      have hco : (ps.flatMap (fun pr => [pr.1 + s, pr.2 + s])).contains p = true := by
        show List.elem p _ = true
        rw [List.elem_eq_mem]
        exact decide_eq_true hmem
      rw [hco]
      rfl
  rw [hfil]
  refine List.Sorted.insertionSort_eq ?_
  have hpw : List.Pairwise (· < ·) ((List.range n).filter
      (fun p => !((ps.flatMap (fun pr => [pr.1 + s, pr.2 + s])).contains p))) :=
    List.Pairwise.sublist (List.filter_sublist _) (List.pairwise_lt_range n)
  refine hpw.imp_of_mem ?_
  intro a b ha hb hab
  have ha' := List.mem_filter.mp ha
  have hb' := List.mem_filter.mp hb
  have han : a < n := List.mem_range.mp ha'.1
  have hbn : b < n := List.mem_range.mp hb'.1
  have hamem : a ∉ ps.flatMap (fun pr => [pr.1 + s, pr.2 + s]) := by
    intro hm
    have hc : (ps.flatMap (fun pr => [pr.1 + s, pr.2 + s])).contains a = true := by
      show List.elem a _ = true
      rw [List.elem_eq_mem]
      exact decide_eq_true hm
    have h2 := ha'.2
    rw [hc] at h2
    exact Bool.false_ne_true h2
  have hbmem : b ∉ ps.flatMap (fun pr => [pr.1 + s, pr.2 + s]) := by
    intro hm
    have hc : (ps.flatMap (fun pr => [pr.1 + s, pr.2 + s])).contains b = true := by
      show List.elem b _ = true
      rw [List.elem_eq_mem]
      exact decide_eq_true hm
    have h2 := hb'.2
    rw [hc] at h2
    exact Bool.false_ne_true h2
  rw [canonEinstr_getD han, canonEinstr_getD hbn,
    findIdx_none_iff_not_mem.mpr hamem, findIdx_none_iff_not_mem.mpr hbmem]
  exact le_of_lt (letters_lower_mono a (by omega) b (by omega) hab)

/-- The summed letters are the pair capitals in pair order. -/
theorem sumLetters_eq {n s : ℕ} {ps : List (ℕ × ℕ)} (h25 : n ≤ 25)
    (hnd : (ps.flatMap (fun pr => [pr.1 + s, pr.2 + s])).Nodup)
    (hlt : ∀ q ∈ ps.flatMap (fun pr => [pr.1 + s, pr.2 + s]), q < n)
    (hij : ∀ pr ∈ ps, pr.1 < pr.2) :
    List.insertionSort (fun a b : Char => b ≤ a)
      (((canonEinstr n s ps).filter
        (fun c => 2 ≤ (canonEinstr n s ps).count c)).dedup) =
    (List.range ps.length).map capLetter := by
  have hP : ps.length < 26 := by
    have := pairs_bound hnd hlt
    omega
  have htpw : List.Pairwise (fun a b : Char => b < a)
      ((List.range ps.length).map capLetter) := by
    rw [List.pairwise_map]
    refine (List.pairwise_lt_range ps.length).imp_of_mem ?_
    intro a b ha hb hab
    exact letters_cap_anti a (by have := List.mem_range.mp ha; omega)
      b (by have := List.mem_range.mp hb; omega) hab
  have htnd : ((List.range ps.length).map capLetter).Nodup :=
    htpw.imp_of_mem (fun _ _ h => ne_of_gt h)
  have htsorted : List.Sorted (fun a b : Char => b ≤ a)
      ((List.range ps.length).map capLetter) :=
    htpw.imp_of_mem (fun _ _ h => le_of_lt h)
  have hmem_iff : ∀ c : Char,
      (c ∈ ((canonEinstr n s ps).filter
        (fun c => 2 ≤ (canonEinstr n s ps).count c)).dedup ↔
       c ∈ (List.range ps.length).map capLetter) := by
    intro c
    rw [List.mem_dedup, List.mem_filter, List.mem_map]
    constructor
    · rintro ⟨hmem, hcnt⟩
      obtain ⟨p, hp, hpe⟩ := List.mem_map.mp (by
        unfold canonEinstr at hmem
        exact hmem)
      have hpn : p < n := List.mem_range.mp hp
      cases hfp : ps.findIdx? (fun pr => pr.1 + s == p || pr.2 + s == p) with
      | none =>
        have hc : c = LETTERS.getD p ' ' := by
          rw [← hpe, hfp]
        have hcnt1 := count_free h25 hnd hlt hpn hfp
        rw [hc] at hcnt
        rw [hcnt1] at hcnt
        exact absurd (decide_eq_true_iff.mp hcnt) (by omega)
      | some i =>
        obtain ⟨hi, _⟩ := findIdx_some_bound hfp
        refine ⟨i, List.mem_range.mpr hi, ?_⟩
        rw [← hpe, hfp]
    · rintro ⟨i, hi, hie⟩
      have hi' : i < ps.length := List.mem_range.mp hi
      have hp1n : ps[i].1 + s < n := hlt _ (mem_contr_iff.mpr ⟨i, hi', Or.inl rfl⟩)
      constructor
      · unfold canonEinstr
        refine List.mem_map.mpr ⟨ps[i].1 + s, List.mem_range.mpr hp1n, ?_⟩
        rw [findIdx_at_pair hnd hi' (Or.inl rfl)]
        exact hie
      · rw [← hie]
        have := count_cap h25 hnd hlt hij hi'
        rw [this]
        exact decide_eq_true (by omega)
  have hdnd : (((canonEinstr n s ps).filter
      (fun c => 2 ≤ (canonEinstr n s ps).count c)).dedup).Nodup :=
    List.nodup_dedup _
  have hperm : (((canonEinstr n s ps).filter
      (fun c => 2 ≤ (canonEinstr n s ps).count c)).dedup).Perm
      ((List.range ps.length).map capLetter) := by
    refine List.Subperm.antisymm ?_ ?_
    · exact List.subperm_of_subset hdnd (fun c hc => (hmem_iff c).mp hc)
    · exact List.subperm_of_subset htnd (fun c hc => (hmem_iff c).mpr hc)
  refine List.eq_of_perm_of_sorted ?_ (List.sorted_insertionSort _ _) htsorted
  exact (List.perm_insertionSort _ _).trans hperm

/-- The first occurrence of pair `i`'s capital is the pair's first shifted
position. -/
theorem indexOf_cap {n s : ℕ} {ps : List (ℕ × ℕ)} (h25 : n ≤ 25)
    (hnd : (ps.flatMap (fun pr => [pr.1 + s, pr.2 + s])).Nodup)
    (hlt : ∀ q ∈ ps.flatMap (fun pr => [pr.1 + s, pr.2 + s]), q < n)
    (hij : ∀ pr ∈ ps, pr.1 < pr.2)
    {i : ℕ} (hi : i < ps.length) :
    (canonEinstr n s ps).indexOf (capLetter i) = ps[i].1 + s := by
  have hP : ps.length < 26 := by
    have := pairs_bound hnd hlt
    omega
  have hp1n : ps[i].1 + s < n := hlt _ (mem_contr_iff.mpr ⟨i, hi, Or.inl rfl⟩)
  have hp2n : ps[i].2 + s < n := hlt _ (mem_contr_iff.mpr ⟨i, hi, Or.inr rfl⟩)
  have hab : ps[i].1 + s < ps[i].2 + s := by
    have := hij ps[i] (List.getElem_mem hi)
    omega
  show (canonEinstr n s ps).findIdx (· == capLetter i) = ps[i].1 + s
  rw [List.findIdx_eq (by rw [canonEinstr_length]; exact hp1n)]
  constructor
  · rw [canonEinstr_getElem, findIdx_at_pair hnd hi (Or.inl rfl)]
    exact beq_self_eq_true _
  · intro j hji
    have hjn : j < n := lt_trans hji hp1n
    rw [canonEinstr_getElem]
    cases hfj : ps.findIdx? (fun pr => pr.1 + s == j || pr.2 + s == j) with
    | none =>
      rw [beq_eq_false_iff_ne]
      exact letters_lower_ne_cap j (by omega) i (by omega)
    | some k =>
      rw [beq_eq_false_iff_ne]
      intro hk
      have hki : k = i := by
        obtain ⟨hk', _⟩ := findIdx_some_bound hfj
        exact capLetter_inj (by omega) (by omega) hk
      subst hki
      obtain ⟨hk', hqk⟩ := findIdx_some_bound hfj
      rcases hqk with h | h
      · omega
      · omega

/-- The position of a pair capital in the capital list is the pair index. -/
theorem indexOf_cap_range {P i : ℕ} (hi : i < P) (hP : P ≤ 26) :
    ((List.range P).map capLetter).indexOf (capLetter i) = i := by
  show ((List.range P).map capLetter).findIdx (· == capLetter i) = i
  rw [List.findIdx_eq (by rw [List.length_map, List.length_range]; exact hi)]
  constructor
  · rw [List.getElem_map, List.getElem_range]
    exact beq_self_eq_true _
  · intro j hji
    rw [List.getElem_map, List.getElem_range, beq_eq_false_iff_ne]
    intro hk
    have : j = i := capLetter_inj (by omega) (by omega) hk
    omega

/-- On the canonical letter string, the einsum is the generalized trace. -/
theorem einsum_eq_genTrace {s : ℕ} {ps : List (ℕ × ℕ)} (t : Tensor)
    (h25 : t.shape.length ≤ 25)
    (hnd : (ps.flatMap (fun pr => [pr.1 + s, pr.2 + s])).Nodup)
    (hlt : ∀ q ∈ ps.flatMap (fun pr => [pr.1 + s, pr.2 + s]), q < t.shape.length)
    (hij : ∀ pr ∈ ps, pr.1 < pr.2) :
    einsumOne (canonEinstr t.shape.length s ps) t = genTrace t ps s := by
  have hP : ps.length < 26 := by
    have := pairs_bound hnd hlt
    omega
  have hFP := freePos_eq h25 hnd hlt hij
  have hSL := sumLetters_eq h25 hnd hlt hij
  have hranges : ((List.range ps.length).map capLetter).map
      (fun c => t.shape.getD ((canonEinstr t.shape.length s ps).indexOf c) 0) =
      ps.map (fun pr => t.shape.getD (pr.1 + s) 0) := by
    refine List.ext_getElem ?_ ?_
    · rw [List.length_map, List.length_map, List.length_map, List.length_range]
    · intro q h1 h2
      have hq : q < ps.length := by
        rw [List.length_map] at h2
        exact h2
      rw [List.getElem_map, List.getElem_map, List.getElem_map, List.getElem_range]
      rw [indexOf_cap h25 hnd hlt hij hq]
  simp only [einsumOne, genTrace]
  rw [hFP, hSL, hranges, canonEinstr_length]
  congr 1
  funext out
  refine congrArg List.sum ?_
  refine List.map_congr_left ?_
  intro vs _
  refine congrArg t.data ?_
  refine List.map_congr_left ?_
  intro p hp
  have hpn : p < t.shape.length := List.mem_range.mp hp
  rw [canonEinstr_getD hpn]
  cases hfp : ps.findIdx? (fun pr => pr.1 + s == p || pr.2 + s == p) with
  | none =>
    rw [count_free h25 hnd hlt hpn hfp]
    rw [if_pos (show ((1 : ℕ) == 1) = true from rfl)]
  | some i =>
    obtain ⟨hi, _⟩ := findIdx_some_bound hfp
    rw [count_cap h25 hnd hlt hij hi]
    rw [if_neg (by decide : ¬ (((2 : ℕ) == 1) = true))]
    rw [indexOf_cap_range hi (le_of_lt hP)]

/-- C7 (amended): `multicontract` fails exactly when the tensor rank is under
2 or the rank (not the free-axis count) plus the pair count reaches 52; on a
rank-at-most-25 tensor with valid, increasing, pairwise-disjoint shifted
pairs it returns the generalized trace. -/
theorem claim_C7_multicontract_trace (t : Tensor) (indices : List (ℕ × ℕ))
    (idx_shift : ℕ)
    (h2 : 2 ≤ t.shape.length) (hcap : t.shape.length + indices.length < 52)
    (h25 : t.shape.length ≤ 25)
    (hij : ∀ pr ∈ indices, pr.1 < pr.2)
    (hnd : (indices.flatMap
      (fun pr => [pr.1 + idx_shift, pr.2 + idx_shift])).Nodup)
    (hlt : ∀ q ∈ indices.flatMap
      (fun pr => [pr.1 + idx_shift, pr.2 + idx_shift]), q < t.shape.length) :
    (∀ (t2 : Tensor) (ind2 : List (ℕ × ℕ)) (s2 : ℕ),
      (∃ e, multicontract t2 ind2 s2 = Except.error e) ↔
        ¬ (t2.shape.length + ind2.length < 52 ∧ 2 ≤ t2.shape.length)) ∧
    multicontract t indices idx_shift =
      Except.ok (genTrace t indices idx_shift) := by
  constructor
  · intro t2 ind2 s2
    unfold multicontract
    by_cases hc1 : t2.shape.length + ind2.length < 52
    · rw [if_neg (not_not_intro hc1)]
      by_cases hc2 : 2 ≤ t2.shape.length
      · rw [if_neg (not_not_intro hc2)]
        constructor
        · rintro ⟨e, he⟩
          exact Except.noConfusion he
        · intro h
          exact absurd ⟨hc1, hc2⟩ h
      · rw [if_pos hc2]
        constructor
        · intro _ hh
          exact hc2 hh.2
        · intro _
          exact ⟨_, rfl⟩
    · rw [if_pos hc1]
      constructor
      · intro _ hh
        exact hc1 hh.1
      · intro _
        exact ⟨_, rfl⟩
  · unfold multicontract
    rw [if_neg (not_not_intro hcap), if_neg (not_not_intro h2)]
    rw [buildEinstr_eq t.shape.length idx_shift indices hnd hlt]
    rw [einsum_eq_genTrace t h25 hnd hlt hij]

/-- C7 (counterexample to the claim as stated): a rank-51 tensor with one
contraction pair has 49 free axes, so free axes + pairs = 50 < 52 and the
claim predicts success, yet the code's assertion compares rank + pairs
(51 + 1 = 52) and `multicontract` fails. -/
theorem claim_C7_multicontract_cex :
    ∃ (t : Tensor) (indices : List (ℕ × ℕ)) (e : String),
      2 ≤ t.shape.length ∧
      (t.shape.length - 2 * indices.length) + indices.length < 52 ∧
      multicontract t indices 0 = Except.error e := by
  refine ⟨⟨List.replicate 51 1, fun _ => 0⟩, [(0, 1)], _, ?_, ?_, rfl⟩
  · show 2 ≤ (List.replicate 51 1).length
    rw [List.length_replicate]
    omega
  · show ((List.replicate 51 1).length - 2 * 1) + 1 < 52
    rw [List.length_replicate]
    omega

/-- C7 amended theorem at a concrete input: a 2×2 matrix traced on its two
axes. -/
theorem claim_C7_multicontract_trace_witness :
    (2 ≤ (Tensor.mk [2, 2] (fun _ => 1)).shape.length ∧
     (Tensor.mk [2, 2] (fun _ => 1)).shape.length + [(0, 1)].length < 52 ∧
     (Tensor.mk [2, 2] (fun _ => 1)).shape.length ≤ 25 ∧
     (∀ pr ∈ [(0, 1)], pr.1 < pr.2) ∧
     (([(0, 1)] : List (ℕ × ℕ)).flatMap
       (fun pr => [pr.1 + 0, pr.2 + 0])).Nodup ∧
     (∀ q ∈ ([(0, 1)] : List (ℕ × ℕ)).flatMap (fun pr => [pr.1 + 0, pr.2 + 0]),
       q < (Tensor.mk [2, 2] (fun _ => 1)).shape.length)) ∧
    ((∀ (t2 : Tensor) (ind2 : List (ℕ × ℕ)) (s2 : ℕ),
      (∃ e, multicontract t2 ind2 s2 = Except.error e) ↔
        ¬ (t2.shape.length + ind2.length < 52 ∧ 2 ≤ t2.shape.length)) ∧
     multicontract (Tensor.mk [2, 2] (fun _ => 1)) [(0, 1)] 0 =
       Except.ok (genTrace (Tensor.mk [2, 2] (fun _ => 1)) [(0, 1)] 0)) :=
  ⟨⟨by decide, by decide, by decide, by decide, by decide, by decide⟩,
    claim_C7_multicontract_trace (Tensor.mk [2, 2] (fun _ => 1)) [(0, 1)] 0
      (by decide) (by decide) (by decide) (by decide) (by decide) (by decide)⟩

/-- Counterexample for claim C2 as stated, i.e. without a bound on the tensor
orders.  The einsum string of `times_group_element` starts its new output
letters at `LETTERS[13]`, so they collide with the data letters
`LETTERS[:D+k]` whenever `D + k ≥ 14` — a regime the class method allows
(`assert self.k < 14`).  Take `D = 2`, an order-6 image and an order-6
invariant filter: the left side of the claimed equation rotates at order 6,
where the string is collision-free and the order is preserved, then convolves
to an order-12 image; the right side convolves to order 12 and then rotates
at `k = 12` (which passes the assert), where the string has only 13 letters
occurring exactly once (`n` is the 14th data letter, `gg₀`'s row letter and
`gg₁₁`'s column letter at once), so `jnp.einsum` returns a rank-13 array and
the constructed image has order 11 ≠ 12 — the two sides are images of
different orders and the claimed equality fails. -/
theorem claim_C2_convolution_equivariance_cex :
    rotResultOrder 2 6 = 6 ∧ 12 < 14 ∧
    rotResultOrder 2 12 = 11 ∧ rotResultOrder 2 12 ≠ 6 + 6 := by
  decide
